import Mathlib

/-!
Verification of the MCQ quiz-generation core of `quiz_agent.py`.

The pure core (text normalization, sentence selection, noun-pool extraction,
target masking, distractor sampling, the assembly loop and the formatter) is
shallowly embedded below.  External collaborators (the NLTK sentence
tokenizer, word tokenizer and POS tagger) are passed in as function
parameters, matching the spec's contract that they are deterministic,
pure capabilities.  The `random.Random(seed)` generator is modelled as a
deterministic stream of naturals `Nat → Nat` together with a cursor; each
sampling primitive (`randrange`, `choice`, `sample`, `shuffle`) consumes
draws from the stream.  Strings are treated at the level of their character
lists; character classes mirror the ASCII behaviour of the regexes used by
the source (`\w`, `\s`, `[A-Za-z][A-Za-z-]+`, the punctuation strip set).
-/

/-- ASCII model of Python's `\s` class (space, tab, newline, CR, VT, FF). -/
def isSpaceC (c : Char) : Bool :=
  c.toNat = 32 || c.toNat = 9 || c.toNat = 10 || c.toNat = 13 || c.toNat = 11 || c.toNat = 12

/-- ASCII letters `[A-Za-z]`. -/
def isAlphaC (c : Char) : Bool :=
  (65 ≤ c.toNat && c.toNat ≤ 90) || (97 ≤ c.toNat && c.toNat ≤ 122)

/-- ASCII digits `[0-9]`. -/
def isDigitC (c : Char) : Bool :=
  48 ≤ c.toNat && c.toNat ≤ 57

/-- ASCII model of Python's `\w` class: letters, digits, underscore. -/
def isWordC (c : Char) : Bool :=
  isAlphaC c || isDigitC c || c.toNat = 95

/-- The character class `[A-Za-z-]` used by the noun regexes. -/
def isAlphaHyphenC (c : Char) : Bool :=
  isAlphaC c || c.toNat = 45

/-- The punctuation set `.,;:!?()[]{}'"` stripped from noun candidates
(`_collect_nouns`), written by character code. -/
def isPunctC (c : Char) : Bool :=
  c.toNat = 46 || c.toNat = 44 || c.toNat = 59 || c.toNat = 58 || c.toNat = 33 ||
  c.toNat = 63 || c.toNat = 40 || c.toNat = 41 || c.toNat = 91 || c.toNat = 93 ||
  c.toNat = 123 || c.toNat = 125 || c.toNat = 39 || c.toNat = 34

/-- ASCII model of Python's `str.lower` on a single character. -/
def lowChar (c : Char) : Char :=
  if 65 ≤ c.toNat ∧ c.toNat ≤ 90 then Char.ofNat (c.toNat + 32) else c

theorem toNat_ofNat_of_valid (n : Nat) (h : n.isValidChar) : (Char.ofNat n).toNat = n := by
  simp [Char.ofNat, h, Char.ofNatAux, Char.toNat, UInt32.toNat, BitVec.toNat_ofNatLt]

theorem toNat_lowChar (c : Char) :
    (lowChar c).toNat = if 65 ≤ c.toNat ∧ c.toNat ≤ 90 then c.toNat + 32 else c.toNat := by
  unfold lowChar
  split
  · next h =>
    rw [toNat_ofNat_of_valid]
    left
    omega
  · rfl

example : lowChar (Char.ofNat 65) = Char.ofNat 97 := by decide

theorem isSpaceC_lowChar (c : Char) : isSpaceC (lowChar c) = isSpaceC c := by
  unfold isSpaceC
  rw [toNat_lowChar, Bool.eq_iff_iff]
  simp only [Bool.or_eq_true, decide_eq_true_eq]
  split <;> omega

theorem isAlphaC_lowChar (c : Char) : isAlphaC (lowChar c) = isAlphaC c := by
  unfold isAlphaC
  rw [toNat_lowChar, Bool.eq_iff_iff]
  simp only [Bool.or_eq_true, Bool.and_eq_true, decide_eq_true_eq]
  split <;> omega

theorem isWordC_lowChar (c : Char) : isWordC (lowChar c) = isWordC c := by
  unfold isWordC isAlphaC isDigitC
  rw [toNat_lowChar, Bool.eq_iff_iff]
  simp only [Bool.or_eq_true, Bool.and_eq_true, decide_eq_true_eq]
  split <;> omega

theorem isAlphaHyphenC_lowChar (c : Char) : isAlphaHyphenC (lowChar c) = isAlphaHyphenC c := by
  unfold isAlphaHyphenC isAlphaC
  rw [toNat_lowChar, Bool.eq_iff_iff]
  simp only [Bool.or_eq_true, Bool.and_eq_true, decide_eq_true_eq]
  split <;> omega

theorem not_isSpaceC_of_isAlphaHyphenC (c : Char) (h : isAlphaHyphenC c = true) :
    isSpaceC c = false := by
  unfold isAlphaHyphenC isAlphaC at h
  unfold isSpaceC
  simp only [Bool.or_eq_true, Bool.and_eq_true, decide_eq_true_eq] at h
  simp only [Bool.or_eq_false_iff, decide_eq_false_iff_not]
  omega

theorem not_isPunctC_of_isAlphaHyphenC (c : Char) (h : isAlphaHyphenC c = true) :
    isPunctC c = false := by
  unfold isAlphaHyphenC isAlphaC at h
  unfold isPunctC
  simp only [Bool.or_eq_true, Bool.and_eq_true, decide_eq_true_eq] at h
  simp only [Bool.or_eq_false_iff, decide_eq_false_iff_not]
  omega

theorem isWordC_of_isAlphaC (c : Char) (h : isAlphaC c = true) : isWordC c = true := by
  unfold isWordC
  simp [h]

theorem lowChar_ne_underscore_of_isAlphaHyphenC (c : Char) (h : isAlphaHyphenC c = true) :
    (lowChar c).toNat ≠ 95 := by
  unfold isAlphaHyphenC isAlphaC at h
  rw [toNat_lowChar]
  simp only [Bool.or_eq_true, Bool.and_eq_true, decide_eq_true_eq] at h
  split <;> omega

/-! ### Case-insensitive strings and whitespace/punctuation stripping -/

/-- Model of Python `str.lower` on a character list. -/
def lowerList (l : List Char) : List Char := l.map lowChar

/-- Model of Python `str.lower`. -/
def lowerStr (s : String) : String := ⟨lowerList s.data⟩

/-- Model of Python `str.strip()` (whitespace from both ends). -/
def trimList (l : List Char) : List Char :=
  ((l.dropWhile isSpaceC).reverse.dropWhile isSpaceC).reverse

/-- Model of Python `str.strip()` on `String`. -/
def trimStr (s : String) : String := ⟨trimList s.data⟩

/-- Model of Python `str.strip(".,;:!?()[]\x7b\x7d'\"")` used by `_collect_nouns`. -/
def stripPunctList (l : List Char) : List Char :=
  ((l.dropWhile isPunctC).reverse.dropWhile isPunctC).reverse

/-! ### Whole-word case-insensitive masking (`_mask_target_in_sentence`)

`_mask_target_in_sentence` runs
`re.compile(rf"\b\x7bre.escape(target)\x7d\b", re.IGNORECASE).sub("_____", sentence, count=1)`:
the target is matched literally (escaped), case-insensitively, between two
word boundaries, and only the first (leftmost) occurrence is replaced by the
five-underscore blank.  We model the regex scan directly: a match at a
position needs (i) the target to be a case-insensitive prefix of the rest of
the string, (ii) a `\b` on the left — the wordness of the previous character
(tracked in `prevW`; false at the string start) must differ from the wordness
of the target's first character — and (iii) a `\b` on the right, comparing
the target's last character with the character following the match
(end-of-string counts as non-word). -/

/-- The blank marker `"_____"` as characters (five underscores, code 95). -/
def blankChars : List Char :=
  [Char.ofNat 95, Char.ofNat 95, Char.ofNat 95, Char.ofNat 95, Char.ofNat 95]

/-- `t` is a case-insensitive prefix of `s` (both sides case-folded,
modelling `re.IGNORECASE` literal matching). -/
def ciStarts : List Char → List Char → Bool
  | [], _ => true
  | _ :: _, [] => false
  | a :: t, b :: s => lowChar a = lowChar b && ciStarts t s

/-- Wordness of the first character of a list; `false` for the empty list
(end-of-string behaves as a non-word position for `\b`). -/
def headWordB : List Char → Bool
  | [] => false
  | c :: _ => isWordC c

/-- The regex `\b{target}\b` (IGNORECASE) matches at the current position of
`s`, where `prevW` is the wordness of the character just before this
position.  The target is nonempty in every use in the source (nouns have at
least 3 characters), so the degenerate pattern `\b\b` is excluded. -/
def matchHere (t : List Char) (prevW : Bool) (s : List Char) : Bool :=
  !t.isEmpty && ciStarts t s && (headWordB t != prevW) &&
    (headWordB t.reverse != headWordB (s.drop t.length))

/-- One left-to-right scan replacing the first whole-word occurrence of `t`
with the blank marker; `prevW` is the wordness of the previous character.
Models `pattern.sub("_____", sentence, count=1)`. -/
def maskAux (t : List Char) (prevW : Bool) : List Char → List Char
  | [] => []
  | c :: rest =>
    if matchHere t prevW (c :: rest) then blankChars ++ (c :: rest).drop t.length
    else c :: maskAux t (isWordC c) rest

/-- `_mask_target_in_sentence`: replace the first case-insensitive
whole-word occurrence of `target` in `sentence` with `"_____"`. -/
def _mask_target_in_sentence (sentence target : String) : String :=
  ⟨maskAux target.data false sentence.data⟩

/-- Scan for a whole-word case-insensitive match anywhere in the list. -/
def containsAux (t : List Char) (prevW : Bool) : List Char → Bool
  | [] => false
  | c :: rest => matchHere t prevW (c :: rest) || containsAux t (isWordC c) rest

/-- `s` contains `t` as a standalone case-insensitive whole-word match
(the property the spec asserts fails for rendered question texts). -/
def containsWholeWordCI (s t : String) : Bool := containsAux t.data false s.data

/-- Number of non-overlapping whole-word case-insensitive occurrences of `t`,
scanning left to right and resuming after each match, as `re` does.  The
first argument is fuel, instantiated with the length of the list. -/
def occAux (t : List Char) : Nat → Bool → List Char → Nat
  | 0, _, _ => 0
  | _ + 1, _, [] => 0
  | fuel + 1, prevW, c :: rest =>
    if matchHere t prevW (c :: rest) then
      1 + occAux t fuel (headWordB t.reverse) ((c :: rest).drop t.length)
    else occAux t fuel (isWordC c) rest

/-- Number of non-overlapping whole-word case-insensitive occurrences of
`t` in `s`. -/
def occWholeWordCI (s t : String) : Nat := occAux t.data s.data.length false s.data

example : _mask_target_in_sentence "The dog saw the dog" "dog" = "The _____ saw the dog" := by
  decide

example : containsWholeWordCI "The _____ saw the dog" "dog" = true := by decide

example : occWholeWordCI "The dog saw the dog" "dog" = 2 := by decide

example : occWholeWordCI "the dogs dog doggy Dog" "dog" = 2 := by decide

example : _mask_target_in_sentence "a well-being test of well-being" "WELL-BEING" =
    "a _____ test of well-being" := by decide

/-! ### Text normalizer, sentence selector, noun pool (`quiz_agent.py`) -/

/-- One pass of `re.sub(r"\s+", " ", raw)`: collapse every whitespace run to
a single space.  `prevSpace` records whether the previous character was part
of a whitespace run. -/
def collapseGo (prevSpace : Bool) : List Char → List Char
  | [] => []
  | c :: rest =>
    if isSpaceC c then
      if prevSpace then collapseGo true rest
      else Char.ofNat 32 :: collapseGo true rest
    else c :: collapseGo false rest

/-- The cleanup performed at the end of `_read_pdf_text` on the
newline-joined page texts: `re.sub(r"\s+", " ", raw).strip()`.  The PDF
extraction itself is an external collaborator; its raw joined output is this
function's input. -/
def _read_pdf_text_cleanup (raw : String) : String :=
  ⟨trimList (collapseGo false raw.data)⟩

/-- Count of `re.findall(r"\w+", s)`: the number of maximal runs of word
characters.  `inRun` records whether the previous character was a word
character. -/
def wordRunCount (inRun : Bool) : List Char → Nat
  | [] => 0
  | c :: rest =>
    if isWordC c then
      if inRun then wordRunCount true rest else 1 + wordRunCount true rest
    else wordRunCount false rest

/-- `len(re.findall(r"\w+", sentence))`. -/
def countWords (sentence : String) : Nat := wordRunCount false sentence.data

/-- `sentence.strip().endswith(":")`. -/
def endsColon (sentence : String) : Bool :=
  match (trimList sentence.data).reverse with
  | [] => false
  | c :: _ => c.toNat = 58

/-- `_select_candidate_sentences`: split `text` into sentences with the
(injected) sentence tokenizer, keep the stripped sentence iff its word count
is in `[8, 35]` and it does not end with a colon. -/
def _select_candidate_sentences (sentTok : String → List String) (text : String) :
    List String :=
  (sentTok text).filterMap (fun sentence =>
    if 8 ≤ countWords sentence ∧ countWords sentence ≤ 35 ∧ endsColon sentence = false
    then some (trimStr sentence) else none)

/-- `re.match(r"^[A-Za-z][A-Za-z\-]+$", w)`: a letter followed by one or
more letters/hyphens. -/
def regexNounB (w : String) : Bool :=
  match w.data with
  | [] => false
  | c :: rest => isAlphaC c && !rest.isEmpty && rest.all isAlphaHyphenC

/-- `t.startswith("NN")`. -/
def tagNN (tag : String) : Bool :=
  match tag.data with
  | a :: b :: _ => a.toNat = 78 && b.toNat = 78
  | _ => false

/-- The normalize-and-deduplicate loop of `_collect_nouns`: strip
whitespace, then the punctuation set, from both ends; skip empty results;
keep the first occurrence of each lower-cased key of length above 2. -/
def collectGo (seen : List String) : List String → List String
  | [] => []
  | w :: rest =>
    let base : String := ⟨stripPunctList (trimList w.data)⟩
    if base = "" then collectGo seen rest
    else if lowerStr base ∉ seen ∧ 2 < base.length then
      base :: collectGo (lowerStr base :: seen) rest
    else collectGo seen rest

/-- `_collect_nouns`: tokenize and tag the document (injected tokenizer and
tagger), keep tokens whose tag starts with "NN" and which match the noun
regex, then strip/deduplicate. -/
def _collect_nouns (wordTok : String → List String)
    (posTag : List String → List (String × String)) (text : String) : List String :=
  collectGo []
    (((posTag (wordTok text)).filter (fun p => tagNN p.2 && regexNounB p.1)).map
      (fun p => p.1))

/-- Split into maximal runs of `[A-Za-z-]` characters (possibly empty runs
at class boundaries; empty runs yield no match below). -/
def runsGo (cur : List Char) : List Char → List (List Char)
  | [] => [cur.reverse]
  | c :: rest =>
    if isAlphaHyphenC c then runsGo (c :: cur) rest
    else cur.reverse :: runsGo [] rest

/-- The leftmost greedy match of `[A-Za-z][A-Za-z\-]{3,}` inside one run:
the suffix starting at the first letter with at least 3 characters after it
(the regex engine advances one position after each failed start, and a
successful match is greedy, consuming the run's tail). -/
def matchInRun : List Char → Option (List Char)
  | [] => none
  | c :: rest =>
    if isAlphaC c ∧ 3 ≤ rest.length then some (c :: rest)
    else matchInRun rest

/-- `re.findall(r"[A-Za-z][A-Za-z\-]{3,}", text)`. -/
def findLongWords (text : String) : List String :=
  ((runsGo [] text.data).filterMap matchInRun).map (fun l => (⟨l⟩ : String))

/-- `list(dict.fromkeys(words))`: order-preserving identity dedup. -/
def dedupIdent (seen : List String) : List String → List String
  | [] => []
  | w :: rest =>
    if w ∈ seen then dedupIdent seen rest else w :: dedupIdent (w :: seen) rest

/-- The fallback pseudo-noun pool built when `_collect_nouns` is empty:
mid-length words extracted by regex, deduplicated by identity. -/
def _fallback_nouns (text : String) : List String := dedupIdent [] (findLongWords text)

/-! ### The random-source model -/

/-- `k` draws without replacement from `pool`, each draw selecting the index
`stream pos % remaining-size` and consuming one stream value.  This models
`rng.sample(pool, k)` (for `k ≤ len(pool)`) and, with `k = pool.length`,
`rng.shuffle` (the result is a permutation of the pool chosen by the
stream).  The concrete MT19937 value sequence of CPython's
`random.Random` is abstracted by the injected stream; every theorem about
the pipeline below is universally quantified over streams, and the seeded
entry point fixes one deterministic stream per seed. -/
def drawGo (stream : Nat → Nat) : Nat → List String → Nat → (List String × Nat)
  | 0, _, pos => ([], pos)
  | _ + 1, [], pos => ([], pos)
  | k + 1, a :: l, pos =>
    let i := stream pos % (a :: l).length
    let r := drawGo stream k ((a :: l).eraseIdx i) (pos + 1)
    ((a :: l).getD i "" :: r.1, r.2)

/-- Deterministic stream standing for `random.Random(seed)`: a fixed
function of the seed (the actual Mersenne Twister outputs are abstracted;
only their determinism per seed matters to the spec). -/
def pyRandom (seed : Int) : Nat → Nat :=
  fun k => ((seed % 2147483647).toNat + 1103515245 * k + 12345) % 4294967296

/-! ### Question builder (`_build_mcq`) -/

/-- The distractor candidate pool of `_build_mcq`: noun-pool entries whose
lower-cased form differs from the target's lower-cased form and from its
naive plural (lower-cased target + "s"). -/
def distractors_pool (target : String) (noun_pool : List String) : List String :=
  noun_pool.filter (fun n =>
    lowerStr n != lowerStr target && lowerStr n != lowerStr target ++ "s")

/-- `_build_mcq`: sample `min 3 |pool|` distractors without replacement,
append the target, shuffle, and mask the target in the sentence.  Returns
`((question_text, options, correct), next-stream-position)`. -/
def _build_mcq (sentence target : String) (noun_pool : List String)
    (stream : Nat → Nat) (pos : Nat) : (String × List String × String) × Nat :=
  let dpool := distractors_pool target noun_pool
  let ds := drawGo stream (min 3 dpool.length) dpool pos
  let all_options := ds.1 ++ [target]
  let shuffled := drawGo stream all_options.length all_options ds.2
  ((_mask_target_in_sentence sentence target, shuffled.1, target), shuffled.2)

/-! ### Assembly loop -/

/-- `opt.strip().lower()`, the dedup key used on option lists. -/
def optionKey (o : String) : String := lowerStr (trimStr o)

/-- The option dedup pass of the assembly loop: keep an option iff its key
is nonempty and unseen (first occurrence wins, original casing kept). -/
def dedupOptionsGo (seen : List String) : List String → List String
  | [] => []
  | o :: rest =>
    if optionKey o ≠ "" ∧ optionKey o ∉ seen then
      o :: dedupOptionsGo (optionKey o :: seen) rest
    else dedupOptionsGo seen rest

/-- The option post-processing of the assembly loop (lines 215–236 before
the final reshuffle): dedup case-insensitively, discard the attempt
(`none`, the loop's `continue`) when fewer than 2 unique options remain,
re-append the correct answer if the dedup dropped it, truncate to 4
options, and force the correct answer into the last slot if truncation
dropped it. -/
def postProcessOptions (correct : String) (options : List String) : Option (List String) :=
  let normalized := dedupOptionsGo [] options
  if normalized.length < 2 then none
  else
    let normalized2 := if correct ∈ normalized then normalized else normalized ++ [correct]
    let options_final := normalized2.take 4
    some (if correct ∈ options_final then options_final
      else if options_final.isEmpty then [correct]
      else options_final.dropLast ++ [correct])

/-- Nouns of one sentence (tokenized and tagged afresh) that also occur in
the global noun pool, case-insensitively — the eligible blank targets. -/
def sentenceNouns (wordTok : String → List String)
    (posTag : List String → List (String × String)) (nouns : List String)
    (sentence : String) : List String :=
  (((posTag (wordTok sentence)).filter (fun p => tagNN p.2)).map (fun p => p.1)).filter
    (fun n => nouns.any (fun g => lowerStr n == lowerStr g))

/-- State of the assembly loop: accepted questions, seen sentence indices,
attempt counter and stream cursor. -/
structure LoopState where
  chosen : List (String × List String × String)
  seen : List Nat
  attempts : Nat
  pos : Nat
deriving DecidableEq

/-- `max(num_questions * 6, 30)` as the attempt budget (always ≥ 30, hence
positive, so the `Nat` value is faithful to the Python `int`). -/
def maxAttemptsN (num_questions : Int) : Nat := (max (num_questions * 6) 30).toNat

/-- The assembly loop of `generate_quiz_from_pdf` (lines 192–238).  The
`while` loop increments `attempts` on every iteration and its guard caps
`attempts` by the budget; the structural `fuel` argument is started at the
budget, so fuel can never run out before the guard stops the loop
(`attempts + remaining fuel = budget` is invariant along the call below).
Each iteration: draw a sentence index over the whole pool; a seen index
just consumes the attempt; otherwise mark it seen, find eligible targets,
discard the attempt if none, else pick a target, build the MCQ, dedup the
options, discard if fewer than 2 remain, re-insert the correct answer if
dropped, truncate to 4 (forcing the correct answer into the last slot if
truncated away), reshuffle, accept. -/
def loopGo (wordTok : String → List String)
    (posTag : List String → List (String × String)) (cands nouns : List String)
    (num_questions : Int) (stream : Nat → Nat) : Nat → LoopState → LoopState
  | 0, st => st
  | fuel + 1, st =>
    if (st.chosen.length : Int) < num_questions ∧ st.attempts < maxAttemptsN num_questions
    then
      if cands.isEmpty then { st with attempts := st.attempts + 1 }
      else
        let idx := stream st.pos % cands.length
        if idx ∈ st.seen then
          loopGo wordTok posTag cands nouns num_questions stream fuel
            { st with attempts := st.attempts + 1, pos := st.pos + 1 }
        else
          let seen' := idx :: st.seen
          let sentence := cands.getD idx ""
          let sn := sentenceNouns wordTok posTag nouns sentence
          if sn.isEmpty then
            loopGo wordTok posTag cands nouns num_questions stream fuel
              { chosen := st.chosen, seen := seen', attempts := st.attempts + 1,
                pos := st.pos + 1 }
          else
            let target := sn.getD (stream (st.pos + 1) % sn.length) ""
            let built := _build_mcq sentence target nouns stream (st.pos + 2)
            let correct := built.1.2.2
            match postProcessOptions correct built.1.2.1 with
            | none =>
              loopGo wordTok posTag cands nouns num_questions stream fuel
                { chosen := st.chosen, seen := seen', attempts := st.attempts + 1,
                  pos := built.2 }
            | some options_final2 =>
              let shuffled := drawGo stream options_final2.length options_final2 built.2
              loopGo wordTok posTag cands nouns num_questions stream fuel
                { chosen := st.chosen ++ [(built.1.1, shuffled.1, correct)],
                  seen := seen', attempts := st.attempts + 1, pos := shuffled.2 }
    else st

/-! ### Errors and entry points

All three failure paths of `generate_quiz_from_pdf` raise Python's built-in
`ValueError`, with three different message strings; the error model records
the exception class and the message. -/

/-- A raised Python exception: class `ValueError` carrying a message. -/
inductive PyErr where
  | valueError : String → PyErr
deriving DecidableEq

/-- The exception class a handler would catch. -/
def errKind : PyErr → String
  | .valueError _ => "ValueError"

/-- The human-readable message. -/
def errMessage : PyErr → String
  | .valueError m => m

def msgNoText : String := "No text could be extracted from the PDF."

def msgNoSentences : String :=
  "Could not find suitable sentences in the PDF to generate questions."

def msgGenFailed : String := "Failed to generate quiz questions from the provided PDF."

/-- `generate_quiz_from_pdf` up to (excluding) the final formatting: the
list of accepted `(question_text, options, correct)` triples, or the raised
error. -/
def generate_quiz_items (sentTok wordTok : String → List String)
    (posTag : List String → List (String × String)) (rawText : String)
    (num_questions : Int) (stream : Nat → Nat) :
    Except PyErr (List (String × List String × String)) :=
  let text := _read_pdf_text_cleanup rawText
  if text = "" then .error (.valueError msgNoText)
  else
    let candidate_sentences := _select_candidate_sentences sentTok text
    if candidate_sentences.isEmpty then .error (.valueError msgNoSentences)
    else
      let nouns0 := _collect_nouns wordTok posTag text
      let nouns := if nouns0.isEmpty then _fallback_nouns text else nouns0
      let final := loopGo wordTok posTag candidate_sentences nouns num_questions stream
        (maxAttemptsN num_questions) ⟨[], [], 0, 0⟩
      if final.chosen.isEmpty then .error (.valueError msgGenFailed)
      else .ok final.chosen

/-! ### Formatter (`_format_quiz`) -/

def optionLabels : List String := ["A", "B", "C", "D", "E", "F"]

/-- Index of the first occurrence (`list.index`); the `except ValueError`
branch of the source maps a missing element to 0. -/
def idxOrZeroGo (x : String) : List String → Nat
  | [] => 0
  | y :: rest => if y = x then 0 else 1 + idxOrZeroGo x rest

/-- `options.index(correct)` with the source's `except ValueError: 0`. -/
def correctIndexOf (correct : String) (options : List String) : Nat :=
  if correct ∈ options then idxOrZeroGo correct options else 0

/-- The lettered option lines of one question (numeric labels past "F";
in the pipeline at most 4 options ever occur). -/
def optionLines (options : List String) : List String :=
  (List.range options.length).map (fun i =>
    "   " ++ optionLabels.getD i (Nat.repr (i + 1)) ++ ") " ++ options.getD i "")

/-- Question blocks, numbered from `n`. -/
def questionBlocks : Nat → List (String × List String × String) → List String
  | _, [] => []
  | n, (q, options, _) :: rest =>
    (("Q" ++ Nat.repr n ++ ". ") ++ q) ::
      (optionLines options ++ [""] ++ questionBlocks (n + 1) rest)

/-- Answer-key lines, numbered from `n`.  The source indexes
`["A".."F"][correct_index]` directly; in the pipeline the index is below 6
(options are capped at 4), modelled with a default. -/
def answerKeyLines : Nat → List (String × List String × String) → List String
  | _, [] => []
  | n, (_, options, correct) :: rest =>
    (("Q" ++ Nat.repr n ++ ": ") ++ optionLabels.getD (correctIndexOf correct options) "") ::
      answerKeyLines (n + 1) rest

/-- `"\n".join(lines)`. -/
def joinLines : List String → String
  | [] => ""
  | [l] => l
  | l :: rest => l ++ "\n" ++ joinLines rest

/-- `_format_quiz`: deterministic plain-text rendering with an answer key. -/
def _format_quiz (qa_items : List (String × List String × String)) : String :=
  joinLines (["Quiz", ""] ++ questionBlocks 1 qa_items ++ ["Answer Key"] ++
    answerKeyLines 1 qa_items)

/-- `generate_quiz_from_pdf`, from the raw joined page text on (PDF byte
parsing is the external extractor's job): cleanup, selection, noun pool,
assembly loop, formatting — or one of the three `ValueError`s. -/
def generate_quiz_from_pdf (sentTok wordTok : String → List String)
    (posTag : List String → List (String × String)) (rawText : String)
    (num_questions : Int) (stream : Nat → Nat) : Except PyErr String :=
  (generate_quiz_items sentTok wordTok posTag rawText num_questions stream).map
    _format_quiz

/-- `generate_quiz_from_pdf` with an integer seed, the stream being the
deterministic function of the seed that models `random.Random(seed)`. -/
def generate_quiz_seeded (sentTok wordTok : String → List String)
    (posTag : List String → List (String × String)) (rawText : String)
    (num_questions : Int) (seed : Int) : Except PyErr String :=
  generate_quiz_from_pdf sentTok wordTok posTag rawText num_questions (pyRandom seed)

/-! ### Concrete collaborator instances used by witnesses -/

/-- Witness sentence tokenizer: the whole text as one sentence. -/
def oneSentenceTok (s : String) : List String := [s]

/-- Split on ASCII spaces (witness word tokenizer). -/
def splitSpacesGo (cur : List Char) : List Char → List String
  | [] => if cur.isEmpty then [] else [(⟨cur.reverse⟩ : String)]
  | c :: rest =>
    if c.toNat = 32 then
      if cur.isEmpty then splitSpacesGo [] rest
      else (⟨cur.reverse⟩ : String) :: splitSpacesGo [] rest
    else splitSpacesGo (c :: cur) rest

/-- Witness word tokenizer. -/
def spaceTok (s : String) : List String := splitSpacesGo [] s.data

/-- Witness POS tagger: every token is a noun. -/
def tagAllNN (toks : List String) : List (String × String) :=
  toks.map (fun w => (w, "NN"))

/-- First character is an ASCII letter. -/
def headAlphaB : List Char → Bool
  | [] => false
  | c :: _ => isAlphaC c

/-- Shape of every target the pipeline ever masks: nonempty, drawn from the
noun character class `[A-Za-z-]`, and beginning and ending with a letter. -/
def goodTarget (t : List Char) : Bool :=
  headAlphaB t && headAlphaB t.reverse && t.all isAlphaHyphenC

theorem goodTarget_ne_nil {t : List Char} (h : goodTarget t = true) : t ≠ [] := by
  intro he
  subst he
  simp [goodTarget, headAlphaB] at h

theorem goodTarget_headWord {t : List Char} (h : goodTarget t = true) : headWordB t = true := by
  unfold goodTarget at h
  simp only [Bool.and_eq_true] at h
  obtain ⟨⟨h1, _⟩, _⟩ := h
  cases t with
  | nil => simp [headAlphaB] at h1
  | cons c rest => exact isWordC_of_isAlphaC c h1

theorem goodTarget_lastWord {t : List Char} (h : goodTarget t = true) :
    headWordB t.reverse = true := by
  unfold goodTarget at h
  simp only [Bool.and_eq_true] at h
  obtain ⟨⟨_, h2⟩, _⟩ := h
  cases hr : t.reverse with
  | nil => rw [hr] at h2; simp [headAlphaB] at h2
  | cons c rest => rw [hr] at h2; exact isWordC_of_isAlphaC c h2

theorem goodTarget_all {t : List Char} (h : goodTarget t = true) :
    t.all isAlphaHyphenC = true := by
  unfold goodTarget at h
  simp only [Bool.and_eq_true] at h
  exact h.2

theorem lowChar_underscore : (lowChar (Char.ofNat 95)).toNat = 95 := by decide

theorem isWordC_underscore : isWordC (Char.ofNat 95) = true := by decide

/-- No whole-word match of a good target can start at an underscore
(in particular, nowhere inside the blank marker). -/
theorem matchHere_underscore {t : List Char} (hgt : goodTarget t = true)
    (p : Bool) (ys : List Char) : matchHere t p (Char.ofNat 95 :: ys) = false := by
  cases ht : t with
  | nil => exact absurd ht (goodTarget_ne_nil hgt)
  | cons a t' =>
    have ha : isAlphaHyphenC a = true := by
      have := goodTarget_all hgt
      rw [ht] at this
      simp only [List.all_cons, Bool.and_eq_true] at this
      exact this.1
    have hne : lowChar a ≠ lowChar (Char.ofNat 95) := by
      intro he
      have := congrArg Char.toNat he
      rw [lowChar_underscore] at this
      exact lowChar_ne_underscore_of_isAlphaHyphenC a ha this
    unfold matchHere ciStarts
    simp [hne]

/-- Scanning the blank marker produces no match and leaves the scanner in
the "previous character is a word character" state. -/
theorem blank_scan {t : List Char} (hgt : goodTarget t = true) (p : Bool) (xs : List Char) :
    containsAux t p (blankChars ++ xs) = containsAux t true xs := by
  simp only [blankChars, List.cons_append, List.nil_append, containsAux,
    matchHere_underscore hgt, Bool.false_or, isWordC_underscore]
  rfl

theorem occAux_zero_contains {t : List Char} :
    ∀ (fuel : Nat) (prevW : Bool) (s : List Char), s.length ≤ fuel →
      occAux t fuel prevW s = 0 → containsAux t prevW s = false := by
  intro fuel
  induction fuel with
  | zero =>
    intro prevW s hs _
    have : s = [] := List.length_eq_zero.mp (Nat.le_zero.mp hs)
    subst this
    rfl
  | succ fuel ih =>
    intro prevW s hs hocc
    cases s with
    | nil => rfl
    | cons c rest =>
      by_cases hm : matchHere t prevW (c :: rest) = true
      · simp [occAux, hm] at hocc
      · rw [occAux] at hocc
        rw [if_neg hm] at hocc
        unfold containsAux
        simp only [Bool.not_eq_true] at hm
        simp only [hm, Bool.false_or]
        exact ih (isWordC c) rest (by simp only [List.length_cons] at hs; omega) hocc

/-- Probe preservation: if the (possibly case-folded) pattern `t'` made of
`[A-Za-z-]` characters matches as a prefix of a masked string, it already
matched as a prefix of the original string, and the wordness of the
character right after the probe is unchanged by masking. -/
theorem maskAux_probe {t : List Char} (hgt : goodTarget t = true) :
    ∀ (s : List Char) (w : Bool) (t' : List Char), t'.all isAlphaHyphenC = true →
      ciStarts t' (maskAux t w s) = true →
      ciStarts t' s = true ∧
        headWordB ((maskAux t w s).drop t'.length) = headWordB (s.drop t'.length) := by
  intro s
  induction s with
  | nil =>
    intro w t' _ hci
    cases t' with
    | nil => exact ⟨rfl, rfl⟩
    | cons a t'' =>
      rw [show maskAux t w [] = [] from rfl] at hci
      simp [ciStarts] at hci
  | cons c rest ih =>
    intro w t' ht' hci
    by_cases hm : matchHere t w (c :: rest) = true
    · rw [maskAux, if_pos hm] at hci ⊢
      cases t' with
      | nil =>
        refine ⟨rfl, ?_⟩
        simp only [List.length_nil, List.drop_zero]
        have hcw : isWordC c = true := by
          cases ht : t with
          | nil => exact absurd ht (goodTarget_ne_nil hgt)
          | cons a t'' =>
            have hci2 : ciStarts t (c :: rest) = true := by
              have := hm
              unfold matchHere at this
              simp only [Bool.and_eq_true] at this
              exact this.1.1.2
            rw [ht] at hci2
            simp only [ciStarts, Bool.and_eq_true, decide_eq_true_eq] at hci2
            have haw : isWordC a = true := by
              have hha := goodTarget_headWord hgt
              rw [ht] at hha
              exact hha
            have : isWordC (lowChar a) = isWordC (lowChar c) := by rw [hci2.1]
            rw [isWordC_lowChar, isWordC_lowChar] at this
            rw [← this]
            exact haw
        simp [blankChars, headWordB, isWordC_underscore, hcw]
      | cons a t'' =>
        exfalso
        have ha : isAlphaHyphenC a = true := by
          simp only [List.all_cons, Bool.and_eq_true] at ht'
          exact ht'.1
        simp only [blankChars, List.cons_append, ciStarts, Bool.and_eq_true,
          decide_eq_true_eq] at hci
        have := congrArg Char.toNat hci.1
        rw [lowChar_underscore] at this
        exact lowChar_ne_underscore_of_isAlphaHyphenC a ha this
    · rw [maskAux, if_neg hm] at hci ⊢
      cases t' with
      | nil => exact ⟨rfl, rfl⟩
      | cons a t'' =>
        simp only [ciStarts, Bool.and_eq_true, decide_eq_true_eq] at hci
        simp only [List.all_cons, Bool.and_eq_true] at ht'
        obtain ⟨h1, h2⟩ := hci
        obtain ⟨IH1, IH2⟩ := ih (isWordC c) t'' ht'.2 h2
        refine ⟨?_, ?_⟩
        · simp only [ciStarts, Bool.and_eq_true, decide_eq_true_eq]
          exact ⟨h1, IH1⟩
        · simp only [List.length_cons, List.drop_succ_cons]
          exact IH2

/-- Masking never creates a whole-word match at the current position. -/
theorem maskAux_no_new_match {t : List Char} (hgt : goodTarget t = true)
    (s : List Char) (prevW : Bool)
    (h : matchHere t prevW (maskAux t prevW s) = true) : matchHere t prevW s = true := by
  unfold matchHere at h ⊢
  simp only [Bool.and_eq_true] at h
  obtain ⟨⟨⟨hne, hci⟩, hleft⟩, hright⟩ := h
  obtain ⟨hci2, hbd⟩ := maskAux_probe hgt s prevW t (goodTarget_all hgt) hci
  simp only [Bool.and_eq_true]
  refine ⟨⟨⟨hne, hci2⟩, hleft⟩, ?_⟩
  rw [← hbd]
  exact hright

/-- Core of the corrected masking claim: when the sentence has exactly one
whole-word occurrence, the masked sentence has none. -/
theorem maskAux_occ_one {t : List Char} (hgt : goodTarget t = true) :
    ∀ (fuel : Nat) (prevW : Bool) (s : List Char), s.length ≤ fuel →
      occAux t fuel prevW s = 1 → containsAux t prevW (maskAux t prevW s) = false := by
  intro fuel
  induction fuel with
  | zero =>
    intro prevW s hs hocc
    have : s = [] := List.length_eq_zero.mp (Nat.le_zero.mp hs)
    subst this
    simp [occAux] at hocc
  | succ fuel ih =>
    intro prevW s hs hocc
    cases s with
    | nil => simp [occAux] at hocc
    | cons c rest =>
      by_cases hm : matchHere t prevW (c :: rest) = true
      · rw [occAux, if_pos hm] at hocc
        have hocc0 : occAux t fuel (headWordB t.reverse) ((c :: rest).drop t.length) = 0 := by
          omega
        rw [maskAux, if_pos hm]
        rw [blank_scan hgt]
        have hlen : ((c :: rest).drop t.length).length ≤ fuel := by
          have h1 : t.length ≥ 1 := by
            cases ht : t with
            | nil => exact absurd ht (goodTarget_ne_nil hgt)
            | cons _ _ => simp
          simp only [List.length_drop, List.length_cons]
          simp only [List.length_cons] at hs
          omega
        have := occAux_zero_contains fuel (headWordB t.reverse) _ hlen hocc0
        rw [goodTarget_lastWord hgt] at this
        exact this
      · rw [occAux, if_neg hm] at hocc
        rw [maskAux, if_neg hm]
        unfold containsAux
        have h2 : containsAux t (isWordC c) (maskAux t (isWordC c) rest) = false := by
          apply ih (isWordC c) rest _ hocc
          simp only [List.length_cons] at hs
          omega
        have h1 : matchHere t prevW (c :: maskAux t (isWordC c) rest) = false := by
          rw [Bool.eq_false_iff]
          intro hcontra
          have : matchHere t prevW (maskAux t prevW (c :: rest)) = true := by
            rw [maskAux, if_neg hm]
            exact hcontra
          exact absurd (maskAux_no_new_match hgt (c :: rest) prevW this) hm
        rw [h1, h2]
        rfl

/-- Claim C2 (counterexample): masking replaces only the first whole-word
occurrence (`count=1` in `pattern.sub`), so in a sentence where the target
noun occurs twice the rendered question text still contains the correct
answer as a standalone case-insensitive whole-word match, contradicting the
claim's "this must hold ... including sentences in which the target noun
occurs more than once". -/
theorem mask_leaves_repeated_target :
    occWholeWordCI "The dog saw the dog" "dog" = 2 ∧
    _mask_target_in_sentence "The dog saw the dog" "dog" = "The _____ saw the dog" ∧
    containsWholeWordCI (_mask_target_in_sentence "The dog saw the dog" "dog") "dog" =
      true :=
  ⟨by decide, by decide, by decide⟩

/-- Claim C2 (amended): masking replaces exactly the first whole-word
case-insensitive occurrence of the target with the blank marker `"_____"`;
consequently, whenever the sentence contains exactly one whole-word
occurrence of the target, the rendered question text contains no
standalone case-insensitive whole-word match of the correct answer.
Stated for targets that are nonempty words over the noun character class
`[A-Za-z-]` beginning and ending with a letter (pipeline targets
case-insensitively match a noun-pool entry `^[A-Za-z][A-Za-z-]+$`, so all
but the rare hyphen-terminated noun have this shape). -/
theorem mask_removes_unique_occurrence (sentence target : String)
    (hgt : goodTarget target.data = true)
    (hone : occWholeWordCI sentence target = 1) :
    containsWholeWordCI (_mask_target_in_sentence sentence target) target = false :=
  maskAux_occ_one hgt sentence.data.length false sentence.data le_rfl hone

/-- Concrete instantiation of `mask_removes_unique_occurrence`. -/
theorem mask_removes_unique_occurrence_witness :
    containsWholeWordCI (_mask_target_in_sentence "The dog runs home now" "dog") "dog" =
      false :=
  mask_removes_unique_occurrence "The dog runs home now" "dog" (by decide) (by decide)

/-! ### Lemmas about the random draws (`drawGo`) -/

theorem drawGo_length (stream : Nat → Nat) :
    ∀ (k : Nat) (pool : List String) (pos : Nat),
      (drawGo stream k pool pos).1.length = min k pool.length := by
  intro k
  induction k with
  | zero => intro pool pos; simp [drawGo]
  | succ k ih =>
    intro pool pos
    cases pool with
    | nil => simp [drawGo]
    | cons a l =>
      rw [drawGo]
      have hi : stream pos % (a :: l).length < (a :: l).length :=
        Nat.mod_lt _ (by simp)
      have he : ((a :: l).eraseIdx (stream pos % (a :: l).length)).length =
          (a :: l).length - 1 := List.length_eraseIdx_of_lt hi
      simp only [List.length_cons] at he ⊢
      rw [ih, he]
      omega

theorem drawGo_subset (stream : Nat → Nat) :
    ∀ (k : Nat) (pool : List String) (pos : Nat) (x : String),
      x ∈ (drawGo stream k pool pos).1 → x ∈ pool := by
  intro k
  induction k with
  | zero => intro pool pos x hx; simp [drawGo] at hx
  | succ k ih =>
    intro pool pos x hx
    cases pool with
    | nil => simp [drawGo] at hx
    | cons a l =>
      rw [drawGo] at hx
      simp only [List.mem_cons] at hx
      rcases hx with hx | hx
      · subst hx
        have hi : stream pos % (a :: l).length < (a :: l).length :=
          Nat.mod_lt _ (by simp)
        rw [List.getD_eq_getElem (a :: l) "" hi]
        exact List.getElem_mem hi
      · exact List.mem_of_mem_eraseIdx (ih _ _ x hx)

theorem perm_getD_cons_eraseIdx :
    ∀ (l : List String) (i : Nat), i < l.length →
      List.Perm (l.getD i "" :: l.eraseIdx i) l := by
  intro l
  induction l with
  | nil => intro i hi; simp at hi
  | cons a rest ih =>
    intro i hi
    cases i with
    | zero => simp [List.getD]
    | succ i =>
      have hi' : i < rest.length := by simpa using hi
      have h1 : List.Perm ((a :: rest).getD (i + 1) "" :: (a :: rest).eraseIdx (i + 1))
          ((a :: rest).getD (i + 1) "" :: a :: rest.eraseIdx i) := by
        simp [List.eraseIdx]
      refine h1.trans ?_
      have h2 : List.Perm ((a :: rest).getD (i + 1) "" :: a :: rest.eraseIdx i)
          (a :: (a :: rest).getD (i + 1) "" :: rest.eraseIdx i) :=
        List.Perm.swap a _ _
      refine h2.trans ?_
      refine List.Perm.cons a ?_
      have : (a :: rest).getD (i + 1) "" = rest.getD i "" := by simp [List.getD]
      rw [this]
      exact ih i hi'

theorem drawGo_perm (stream : Nat → Nat) :
    ∀ (k : Nat) (pool : List String) (pos : Nat), pool.length ≤ k →
      List.Perm (drawGo stream k pool pos).1 pool := by
  intro k
  induction k with
  | zero =>
    intro pool pos h
    have : pool = [] := List.length_eq_zero.mp (Nat.le_zero.mp h)
    subst this
    simp [drawGo]
  | succ k ih =>
    intro pool pos h
    cases pool with
    | nil => simp [drawGo]
    | cons a l =>
      rw [drawGo]
      have hi : stream pos % (a :: l).length < (a :: l).length :=
        Nat.mod_lt _ (by simp)
      have hlen : ((a :: l).eraseIdx (stream pos % (a :: l).length)).length ≤ k := by
        rw [List.length_eraseIdx_of_lt hi]
        simp only [List.length_cons] at h ⊢
        omega
      exact ((ih _ _ hlen).cons _).trans (perm_getD_cons_eraseIdx (a :: l) _ hi)

theorem drawGo_nodup (stream : Nat → Nat) :
    ∀ (k : Nat) (pool : List String) (pos : Nat), pool.Nodup →
      (drawGo stream k pool pos).1.Nodup := by
  intro k
  induction k with
  | zero => intro pool pos _; simp [drawGo]
  | succ k ih =>
    intro pool pos hnd
    cases pool with
    | nil => simp [drawGo]
    | cons a l =>
      rw [drawGo]
      have hi : stream pos % (a :: l).length < (a :: l).length :=
        Nat.mod_lt _ (by simp)
      have hcons : ((a :: l).getD (stream pos % (a :: l).length) "" ::
          (a :: l).eraseIdx (stream pos % (a :: l).length)).Nodup :=
        ((perm_getD_cons_eraseIdx (a :: l) _ hi).symm).nodup hnd
      rw [List.nodup_cons] at hcons
      rw [List.nodup_cons]
      refine ⟨?_, ih _ _ hcons.2⟩
      intro hmem
      exact hcons.1 (drawGo_subset stream k _ _ _ hmem)

/-! ### Lemmas about the option dedup pass -/

theorem dedupOptionsGo_subset :
    ∀ (seen l : List String) (x : String), x ∈ dedupOptionsGo seen l → x ∈ l := by
  intro seen l
  induction l generalizing seen with
  | nil => intro x hx; simp [dedupOptionsGo] at hx
  | cons o rest ih =>
    intro x hx
    rw [dedupOptionsGo] at hx
    by_cases h : optionKey o ≠ "" ∧ optionKey o ∉ seen
    · rw [if_pos h] at hx
      rcases List.mem_cons.mp hx with hx | hx
      · exact hx ▸ List.mem_cons_self o rest
      · exact List.mem_cons_of_mem o (ih _ x hx)
    · rw [if_neg h] at hx
      exact List.mem_cons_of_mem o (ih _ x hx)

theorem dedupOptionsGo_length :
    ∀ (seen l : List String), (dedupOptionsGo seen l).length ≤ l.length := by
  intro seen l
  induction l generalizing seen with
  | nil => simp [dedupOptionsGo]
  | cons o rest ih =>
    rw [dedupOptionsGo]
    by_cases h : optionKey o ≠ "" ∧ optionKey o ∉ seen
    · rw [if_pos h]
      simpa using ih (optionKey o :: seen)
    · rw [if_neg h]
      exact (ih seen).trans (by simp)

theorem dedupOptionsGo_keys :
    ∀ (seen l : List String),
      (∀ x ∈ dedupOptionsGo seen l, optionKey x ≠ "" ∧ optionKey x ∉ seen) ∧
      (dedupOptionsGo seen l).Pairwise (fun a b => optionKey a ≠ optionKey b) := by
  intro seen l
  induction l generalizing seen with
  | nil => simp [dedupOptionsGo]
  | cons o rest ih =>
    rw [dedupOptionsGo]
    by_cases h : optionKey o ≠ "" ∧ optionKey o ∉ seen
    · rw [if_pos h]
      obtain ⟨ihm, ihp⟩ := ih (optionKey o :: seen)
      constructor
      · intro x hx
        rcases List.mem_cons.mp hx with hx | hx
        · exact hx ▸ h
        · have := ihm x hx
          exact ⟨this.1, fun hc => this.2 (List.mem_cons_of_mem _ hc)⟩
      · rw [List.pairwise_cons]
        refine ⟨?_, ihp⟩
        intro y hy heq
        exact (ihm y hy).2 (heq ▸ List.mem_cons_self _ _)
    · rw [if_neg h]
      exact ih seen

theorem dedupOptionsGo_mem_of :
    ∀ (seen l : List String) (x : String), x ∈ l → optionKey x ≠ "" →
      optionKey x ∉ seen → (∀ y ∈ l, optionKey y = optionKey x → y = x) →
      x ∈ dedupOptionsGo seen l := by
  intro seen l
  induction l generalizing seen with
  | nil => intro x hx; simp at hx
  | cons o rest ih =>
    intro x hx hkey hseen huniq
    rw [dedupOptionsGo]
    rcases List.mem_cons.mp hx with hx | hx
    · subst hx
      rw [if_pos ⟨hkey, hseen⟩]
      exact List.mem_cons_self _ _
    · by_cases ho : optionKey o = optionKey x
      · have : o = x := huniq o (List.mem_cons_self _ _) ho
        subst this
        rw [if_pos ⟨hkey, hseen⟩]
        exact List.mem_cons_self _ _
      · by_cases h : optionKey o ≠ "" ∧ optionKey o ∉ seen
        · rw [if_pos h]
          refine List.mem_cons_of_mem o (ih _ x hx hkey ?_ ?_)
          · intro hc
            rcases List.mem_cons.mp hc with hc | hc
            · exact ho hc.symm
            · exact hseen hc
          · intro y hy
            exact huniq y (List.mem_cons_of_mem o hy)
        · rw [if_neg h]
          exact ih seen x hx hkey hseen (fun y hy => huniq y (List.mem_cons_of_mem o hy))

/-! ### Well-formedness of noun-pool entries

Both pool constructions only produce nonempty strings over `[A-Za-z-]`
(the primary path filters by the noun regex before stripping, so stripping
is the identity; the fallback regex only matches that class).  These shape
facts make the option dedup key of a pool entry its plain lower-casing. -/

theorem dropWhile_eq_of_all {p : Char → Bool} {l : List Char}
    (hp : ∀ c, isAlphaHyphenC c = true → p c = false)
    (h : l.all isAlphaHyphenC = true) : l.dropWhile p = l := by
  cases l with
  | nil => rfl
  | cons c rest =>
    have hc : isAlphaHyphenC c = true := by
      simp only [List.all_cons, Bool.and_eq_true] at h
      exact h.1
    have : ¬ (p c = true) := by rw [hp c hc]; simp
    exact List.dropWhile_cons_of_neg this

theorem stripEnds_eq_of_all {p : Char → Bool} {l : List Char}
    (hp : ∀ c, isAlphaHyphenC c = true → p c = false)
    (h : l.all isAlphaHyphenC = true) :
    ((l.dropWhile p).reverse.dropWhile p).reverse = l := by
  rw [dropWhile_eq_of_all hp h]
  rw [dropWhile_eq_of_all hp (by rw [List.all_reverse]; exact h)]
  exact List.reverse_reverse l

theorem trimList_eq_of_all {l : List Char} (h : l.all isAlphaHyphenC = true) :
    trimList l = l :=
  stripEnds_eq_of_all not_isSpaceC_of_isAlphaHyphenC h

theorem stripPunctList_eq_of_all {l : List Char} (h : l.all isAlphaHyphenC = true) :
    stripPunctList l = l :=
  stripEnds_eq_of_all not_isPunctC_of_isAlphaHyphenC h

theorem all_AH_map_lowChar (l : List Char) :
    (l.map lowChar).all isAlphaHyphenC = l.all isAlphaHyphenC := by
  induction l with
  | nil => rfl
  | cons c rest ih => simp [List.all_cons, isAlphaHyphenC_lowChar, ih]

theorem lowerStr_ne_empty {s : String} (h : s.data ≠ []) : lowerStr s ≠ "" := by
  intro he
  have h2 : s.data.map lowChar = ([] : List Char) := congrArg String.data he
  exact h (List.map_eq_nil_iff.mp h2)

theorem optionKey_eq_lowerStr {x : String} (h : x.data.all isAlphaHyphenC = true) :
    optionKey x = lowerStr x := by
  unfold optionKey trimStr
  rw [trimList_eq_of_all h]

/-- A shape any target CI-matching a well-formed pool entry inherits. -/
theorem good_transfer {a b : String} (hl : lowerStr a = lowerStr b)
    (hb : b.data ≠ [] ∧ b.data.all isAlphaHyphenC = true) :
    a.data ≠ [] ∧ a.data.all isAlphaHyphenC = true := by
  have hdata : a.data.map lowChar = b.data.map lowChar := congrArg String.data hl
  constructor
  · intro he
    rw [he] at hdata
    exact hb.1 (List.map_eq_nil_iff.mp hdata.symm)
  · calc a.data.all isAlphaHyphenC = (a.data.map lowChar).all isAlphaHyphenC :=
          (all_AH_map_lowChar a.data).symm
      _ = (b.data.map lowChar).all isAlphaHyphenC := by rw [hdata]
      _ = b.data.all isAlphaHyphenC := all_AH_map_lowChar b.data
      _ = true := hb.2

theorem collectGo_shape :
    ∀ (ws seen : List String) (x : String), x ∈ collectGo seen ws →
      ∃ w ∈ ws, x = (⟨stripPunctList (trimList w.data)⟩ : String) := by
  intro ws
  induction ws with
  | nil => intro seen x hx; simp [collectGo] at hx
  | cons w rest ih =>
    intro seen x hx
    rw [collectGo] at hx
    by_cases h0 : (⟨stripPunctList (trimList w.data)⟩ : String) = ""
    · rw [if_pos h0] at hx
      obtain ⟨w', hw', he⟩ := ih seen x hx
      exact ⟨w', List.mem_cons_of_mem w hw', he⟩
    · rw [if_neg h0] at hx
      by_cases h1 : lowerStr ⟨stripPunctList (trimList w.data)⟩ ∉ seen ∧
          2 < (⟨stripPunctList (trimList w.data)⟩ : String).length
      · rw [if_pos h1] at hx
        rcases List.mem_cons.mp hx with hx | hx
        · exact ⟨w, List.mem_cons_self w rest, hx⟩
        · obtain ⟨w', hw', he⟩ := ih _ x hx
          exact ⟨w', List.mem_cons_of_mem w hw', he⟩
      · rw [if_neg h1] at hx
        obtain ⟨w', hw', he⟩ := ih seen x hx
        exact ⟨w', List.mem_cons_of_mem w hw', he⟩

theorem regexNounB_good {w : String} (h : regexNounB w = true) :
    w.data ≠ [] ∧ w.data.all isAlphaHyphenC = true := by
  unfold regexNounB at h
  cases hd : w.data with
  | nil => rw [hd] at h; simp at h
  | cons c rest =>
    rw [hd] at h
    simp only [Bool.and_eq_true] at h
    refine ⟨by simp [hd], ?_⟩
    simp only [List.all_cons, Bool.and_eq_true]
    exact ⟨by unfold isAlphaHyphenC; simp [h.1.1], h.2⟩

theorem _collect_nouns_good (wordTok : String → List String)
    (posTag : List String → List (String × String)) (text : String) :
    ∀ x ∈ _collect_nouns wordTok posTag text,
      x.data ≠ [] ∧ x.data.all isAlphaHyphenC = true := by
  intro x hx
  unfold _collect_nouns at hx
  obtain ⟨w, hw, hxw⟩ := collectGo_shape _ _ x hx
  have hreg : regexNounB w = true := by
    simp only [List.mem_map] at hw
    obtain ⟨p, hp, hpw⟩ := hw
    have h2 := (List.mem_filter.mp hp).2
    simp only [Bool.and_eq_true] at h2
    exact hpw ▸ h2.2
  obtain ⟨hne, hAH⟩ := regexNounB_good hreg
  rw [hxw, trimList_eq_of_all hAH, stripPunctList_eq_of_all hAH]
  exact ⟨hne, hAH⟩

theorem dedupIdent_subset :
    ∀ (l seen : List String) (x : String), x ∈ dedupIdent seen l → x ∈ l := by
  intro l
  induction l with
  | nil => intro seen x hx; simp [dedupIdent] at hx
  | cons w rest ih =>
    intro seen x hx
    rw [dedupIdent] at hx
    by_cases h : w ∈ seen
    · rw [if_pos h] at hx
      exact List.mem_cons_of_mem w (ih seen x hx)
    · rw [if_neg h] at hx
      rcases List.mem_cons.mp hx with hx | hx
      · exact hx ▸ List.mem_cons_self w rest
      · exact List.mem_cons_of_mem w (ih _ x hx)

theorem runsGo_all :
    ∀ (cs cur : List Char), cur.all isAlphaHyphenC = true →
      ∀ r ∈ runsGo cur cs, r.all isAlphaHyphenC = true := by
  intro cs
  induction cs with
  | nil =>
    intro cur hcur r hr
    rw [runsGo] at hr
    rcases List.mem_singleton.mp hr with rfl
    rw [List.all_reverse]
    exact hcur
  | cons c rest ih =>
    intro cur hcur r hr
    rw [runsGo] at hr
    by_cases hc : isAlphaHyphenC c = true
    · rw [if_pos hc] at hr
      exact ih (c :: cur) (by simp [List.all_cons, hc, hcur]) r hr
    · rw [if_neg hc] at hr
      rcases List.mem_cons.mp hr with hr | hr
      · rw [hr, List.all_reverse]
        exact hcur
      · exact ih [] rfl r hr

theorem matchInRun_good :
    ∀ (r : List Char), r.all isAlphaHyphenC = true →
      ∀ l, matchInRun r = some l → l ≠ [] ∧ l.all isAlphaHyphenC = true := by
  intro r
  induction r with
  | nil => intro _ l hl; simp [matchInRun] at hl
  | cons c rest ih =>
    intro hall l hl
    rw [matchInRun] at hl
    simp only [List.all_cons, Bool.and_eq_true] at hall
    by_cases h : isAlphaC c = true ∧ 3 ≤ rest.length
    · rw [if_pos h] at hl
      cases hl
      refine ⟨by simp, ?_⟩
      simp [List.all_cons, hall.1, hall.2]
    · rw [if_neg h] at hl
      exact ih hall.2 l hl

theorem _fallback_nouns_good (text : String) :
    ∀ x ∈ _fallback_nouns text, x.data ≠ [] ∧ x.data.all isAlphaHyphenC = true := by
  intro x hx
  unfold _fallback_nouns at hx
  have hx2 := dedupIdent_subset _ _ x hx
  unfold findLongWords at hx2
  simp only [List.mem_map, List.mem_filterMap] at hx2
  obtain ⟨l, ⟨r, hr, hm⟩, hxl⟩ := hx2
  have hrall := runsGo_all text.data [] rfl r hr
  obtain ⟨hne, hall⟩ := matchInRun_good r hrall l hm
  rw [← hxl]
  exact ⟨hne, hall⟩

/-- The noun pool actually used by `generate_quiz_items` (primary or
fallback) only holds nonempty `[A-Za-z-]` strings. -/
theorem nouns_poolOk (wordTok : String → List String)
    (posTag : List String → List (String × String)) (text : String) :
    ∀ g ∈ (if (_collect_nouns wordTok posTag text).isEmpty then _fallback_nouns text
      else _collect_nouns wordTok posTag text),
      g.data ≠ [] ∧ g.data.all isAlphaHyphenC = true := by
  split
  · exact _fallback_nouns_good text
  · exact _collect_nouns_good wordTok posTag text

/-! ### The accepted-question invariant -/

/-- Well-formedness of an accepted `(question, options, correct)` triple:
the correct answer is an option, no two options agree case-insensitively,
and there are between 2 and 4 options. -/
def QOk (q : String × List String × String) : Prop :=
  q.2.2 ∈ q.2.1 ∧ q.2.1.Pairwise (fun a b => lowerStr a ≠ lowerStr b) ∧
    2 ≤ q.2.1.length ∧ q.2.1.length ≤ 4

theorem postProcess_props (correct : String) (options final : List String)
    (hmem : correct ∈ options) (hlen4 : options.length ≤ 4)
    (hkey : optionKey correct ≠ "")
    (huniq : ∀ y ∈ options, optionKey y = optionKey correct → y = correct)
    (hpp : postProcessOptions correct options = some final) :
    correct ∈ final ∧ final.Pairwise (fun a b => optionKey a ≠ optionKey b) ∧
      2 ≤ final.length ∧ final.length ≤ 4 ∧ ∀ x ∈ final, x ∈ options := by
  have hcN : correct ∈ dedupOptionsGo [] options :=
    dedupOptionsGo_mem_of [] options correct hmem hkey (by simp) huniq
  have hNle : (dedupOptionsGo [] options).length ≤ 4 :=
    (dedupOptionsGo_length [] options).trans hlen4
  have htake : (dedupOptionsGo [] options).take 4 = dedupOptionsGo [] options :=
    List.take_of_length_le hNle
  unfold postProcessOptions at hpp
  by_cases hl : (dedupOptionsGo [] options).length < 2
  · rw [if_pos hl] at hpp
    cases hpp
  · rw [if_neg hl] at hpp
    simp only [] at hpp
    rw [if_pos hcN, htake, if_pos hcN] at hpp
    have hfin : final = dedupOptionsGo [] options := (Option.some_inj.mp hpp).symm
    subst hfin
    refine ⟨hcN, (dedupOptionsGo_keys [] options).2, by omega, hNle, ?_⟩
    exact fun x hx => dedupOptionsGo_subset [] options x hx

theorem build_mcq_facts (sentence target : String) (nouns : List String)
    (stream : Nat → Nat) (pos : Nat) :
    (_build_mcq sentence target nouns stream pos).1.2.2 = target ∧
    target ∈ (_build_mcq sentence target nouns stream pos).1.2.1 ∧
    (_build_mcq sentence target nouns stream pos).1.2.1.length ≤ 4 ∧
    ∀ x ∈ (_build_mcq sentence target nouns stream pos).1.2.1,
      x = target ∨ (x ∈ nouns ∧ lowerStr x ≠ lowerStr target) := by
  unfold _build_mcq
  dsimp only
  set dp := distractors_pool target nouns with hdp
  set ds := drawGo stream (min 3 dp.length) dp pos with hds
  have hperm : List.Perm
      (drawGo stream (ds.1 ++ [target]).length (ds.1 ++ [target]) ds.2).1
      (ds.1 ++ [target]) := drawGo_perm stream _ _ _ le_rfl
  refine ⟨rfl, ?_, ?_, ?_⟩
  · exact hperm.mem_iff.mpr (by simp)
  · rw [hperm.length_eq]
    have hdl : ds.1.length = min (min 3 dp.length) dp.length := by
      rw [hds]
      exact drawGo_length stream _ _ _
    simp only [List.length_append, List.length_cons, List.length_nil]
    omega
  · intro x hx
    have hx2 := hperm.mem_iff.mp hx
    rcases List.mem_append.mp hx2 with hx3 | hx3
    · right
      have hxdp : x ∈ dp := drawGo_subset stream _ _ _ x hx3
      rw [hdp] at hxdp
      unfold distractors_pool at hxdp
      have := List.mem_filter.mp hxdp
      simp only [Bool.and_eq_true, bne_iff_ne] at this
      exact ⟨this.1, this.2.1⟩
    · left
      simpa using hx3

/-- The invariant holds for every question the loop accepts. -/
theorem loopGo_QOk (wordTok : String → List String)
    (posTag : List String → List (String × String)) (cands nouns : List String)
    (num_questions : Int) (stream : Nat → Nat)
    (hpool : ∀ g ∈ nouns, g.data ≠ [] ∧ g.data.all isAlphaHyphenC = true) :
    ∀ (fuel : Nat) (st : LoopState), (∀ q ∈ st.chosen, QOk q) →
      ∀ q ∈ (loopGo wordTok posTag cands nouns num_questions stream fuel st).chosen,
        QOk q := by
  intro fuel
  induction fuel with
  | zero =>
    intro st hinv q hq
    rw [loopGo] at hq
    exact hinv q hq
  | succ fuel ih =>
    intro st hinv q hq
    rw [loopGo] at hq
    simp only [] at hq
    by_cases hguard : (st.chosen.length : Int) < num_questions ∧
        st.attempts < maxAttemptsN num_questions
    swap
    · rw [if_neg hguard] at hq
      exact hinv q hq
    rw [if_pos hguard] at hq
    by_cases hcand : cands.isEmpty
    · rw [if_pos hcand] at hq
      exact hinv q hq
    rw [if_neg hcand] at hq
    by_cases hseen : stream st.pos % cands.length ∈ st.seen
    · rw [if_pos hseen] at hq
      exact ih ⟨st.chosen, st.seen, st.attempts + 1, st.pos + 1⟩ hinv q hq
    rw [if_neg hseen] at hq
    by_cases hsn : (sentenceNouns wordTok posTag nouns
        (cands.getD (stream st.pos % cands.length) "")).isEmpty
    · rw [if_pos hsn] at hq
      exact ih ⟨st.chosen, stream st.pos % cands.length :: st.seen, st.attempts + 1,
        st.pos + 1⟩ hinv q hq
    rw [if_neg hsn] at hq
    set sentence := cands.getD (stream st.pos % cands.length) "" with hsent
    set sn := sentenceNouns wordTok posTag nouns sentence with hsnd
    set target := sn.getD (stream (st.pos + 1) % sn.length) "" with htgt
    set built := _build_mcq sentence target nouns stream (st.pos + 2) with hbuilt
    -- the eligible target CI-matches a pool entry, so it is well-formed
    have hsnne : sn ≠ [] := by
      intro he
      rw [he] at hsn
      exact hsn rfl
    have hsnlen : 0 < sn.length := List.length_pos.mpr hsnne
    have htmem : target ∈ sn := by
      rw [htgt]
      have hlt : stream (st.pos + 1) % sn.length < sn.length := Nat.mod_lt _ hsnlen
      rw [List.getD_eq_getElem sn "" hlt]
      exact List.getElem_mem hlt
    have htgood : target.data ≠ [] ∧ target.data.all isAlphaHyphenC = true := by
      rw [hsnd] at htmem
      unfold sentenceNouns at htmem
      have h2 := (List.mem_filter.mp htmem).2
      rw [List.any_eq_true] at h2
      obtain ⟨g, hg, heq⟩ := h2
      rw [beq_iff_eq] at heq
      exact good_transfer heq (hpool g hg)
    obtain ⟨hcorr, htmemopts, hlen4, hshape⟩ :=
      build_mcq_facts sentence target nouns stream (st.pos + 2)
    cases hpp : postProcessOptions built.1.2.2 built.1.2.1 with
    | none =>
      rw [hpp] at hq
      exact ih ⟨st.chosen, stream st.pos % cands.length :: st.seen, st.attempts + 1,
        built.2⟩ hinv q hq
    | some options_final2 =>
      rw [hpp] at hq
      refine ih _ ?_ q hq
      intro q' hq'
      rcases List.mem_append.mp hq' with hq' | hq'
      · exact hinv q' hq'
      · rcases List.mem_singleton.mp hq' with rfl
        -- the freshly accepted question
        rw [hcorr] at hpp
        have hkey : optionKey target ≠ "" := by
          rw [optionKey_eq_lowerStr htgood.2]
          exact lowerStr_ne_empty htgood.1
        have huniq : ∀ y ∈ built.1.2.1, optionKey y = optionKey target → y = target := by
          intro y hy hk
          rcases hshape y hy with h | h
          · exact h
          · exfalso
            have hygood := hpool y h.1
            rw [optionKey_eq_lowerStr hygood.2, optionKey_eq_lowerStr htgood.2] at hk
            exact h.2 hk
        obtain ⟨hfin1, hfin2, hfin3, hfin4, hfin5⟩ :=
          postProcess_props target built.1.2.1 options_final2 htmemopts hlen4 hkey huniq hpp
        have hperm : List.Perm
            (drawGo stream options_final2.length options_final2 built.2).1
            options_final2 := drawGo_perm stream _ _ _ le_rfl
        constructor
        · -- correct ∈ options
          show built.1.2.2 ∈ _
          rw [hcorr]
          exact hperm.mem_iff.mpr hfin1
        refine ⟨?_, ?_, ?_⟩
        · -- case-insensitive uniqueness
          have hlow : options_final2.Pairwise (fun a b => lowerStr a ≠ lowerStr b) := by
            refine hfin2.imp_of_mem ?_
            intro a b ha hb hk
            intro hlab
            apply hk
            have hag : a.data.all isAlphaHyphenC = true := by
              rcases hshape a (hfin5 a ha) with h | h
              · rw [h]; exact htgood.2
              · exact (hpool a h.1).2
            have hbg : b.data.all isAlphaHyphenC = true := by
              rcases hshape b (hfin5 b hb) with h | h
              · rw [h]; exact htgood.2
              · exact (hpool b h.1).2
            rw [optionKey_eq_lowerStr hag, optionKey_eq_lowerStr hbg, hlab]
          exact (hperm.pairwise_iff (fun hab => Ne.symm hab)).mpr hlow
        · rw [hperm.length_eq]
          exact hfin3
        · rw [hperm.length_eq]
          exact hfin4

/-- The loop never accumulates more than `max` of its starting count and the
requested count: each iteration appends at most one question and the guard
stops at the requested count. -/
theorem loopGo_length_le (wordTok : String → List String)
    (posTag : List String → List (String × String)) (cands nouns : List String)
    (num_questions : Int) (stream : Nat → Nat) :
    ∀ (fuel : Nat) (st : LoopState),
      ((loopGo wordTok posTag cands nouns num_questions stream fuel st).chosen.length : Int) ≤
        max (st.chosen.length : Int) num_questions := by
  intro fuel
  induction fuel with
  | zero =>
    intro st
    rw [loopGo]
    exact le_max_left _ _
  | succ fuel ih =>
    intro st
    rw [loopGo]
    simp only []
    by_cases hguard : (st.chosen.length : Int) < num_questions ∧
        st.attempts < maxAttemptsN num_questions
    swap
    · rw [if_neg hguard]
      exact le_max_left _ _
    rw [if_pos hguard]
    by_cases hcand : cands.isEmpty
    · rw [if_pos hcand]
      exact le_max_left _ _
    rw [if_neg hcand]
    by_cases hseen : stream st.pos % cands.length ∈ st.seen
    · rw [if_pos hseen]
      exact ih ⟨st.chosen, st.seen, st.attempts + 1, st.pos + 1⟩
    rw [if_neg hseen]
    by_cases hsn : (sentenceNouns wordTok posTag nouns
        (cands.getD (stream st.pos % cands.length) "")).isEmpty
    · rw [if_pos hsn]
      exact ih ⟨st.chosen, stream st.pos % cands.length :: st.seen, st.attempts + 1,
        st.pos + 1⟩
    rw [if_neg hsn]
    set sentence := cands.getD (stream st.pos % cands.length) "" with hsent
    set sn := sentenceNouns wordTok posTag nouns sentence with hsnd
    set target := sn.getD (stream (st.pos + 1) % sn.length) "" with htgt
    set built := _build_mcq sentence target nouns stream (st.pos + 2) with hbuilt
    cases hpp : postProcessOptions built.1.2.2 built.1.2.1 with
    | none =>
      exact ih ⟨st.chosen, stream st.pos % cands.length :: st.seen, st.attempts + 1,
        built.2⟩
    | some options_final2 =>
      show ((loopGo wordTok posTag cands nouns num_questions stream fuel
        ⟨st.chosen ++ [(built.1.1,
            (drawGo stream options_final2.length options_final2 built.2).1, built.1.2.2)],
          stream st.pos % cands.length :: st.seen, st.attempts + 1,
          (drawGo stream options_final2.length options_final2 built.2).2⟩).chosen.length :
        Int) ≤ max (st.chosen.length : Int) num_questions
      have h2 := ih ⟨st.chosen ++ [(built.1.1,
          (drawGo stream options_final2.length options_final2 built.2).1, built.1.2.2)],
        stream st.pos % cands.length :: st.seen, st.attempts + 1,
        (drawGo stream options_final2.length options_final2 built.2).2⟩
      have h3 : (((st.chosen ++ [(built.1.1,
          (drawGo stream options_final2.length options_final2 built.2).1,
          built.1.2.2)]).length : Int)) = (st.chosen.length : Int) + 1 := by
        simp
      rw [h3] at h2
      have h4 := hguard.1
      omega

/-- Every loop iteration increments the attempt counter exactly once, so the
final counter is bounded by the starting counter plus the fuel. -/
theorem loopGo_attempts_le (wordTok : String → List String)
    (posTag : List String → List (String × String)) (cands nouns : List String)
    (num_questions : Int) (stream : Nat → Nat) :
    ∀ (fuel : Nat) (st : LoopState),
      (loopGo wordTok posTag cands nouns num_questions stream fuel st).attempts ≤
        st.attempts + fuel := by
  intro fuel
  induction fuel with
  | zero =>
    intro st
    rw [loopGo]
    omega
  | succ fuel ih =>
    intro st
    rw [loopGo]
    simp only []
    by_cases hguard : (st.chosen.length : Int) < num_questions ∧
        st.attempts < maxAttemptsN num_questions
    swap
    · rw [if_neg hguard]
      omega
    rw [if_pos hguard]
    by_cases hcand : cands.isEmpty
    · rw [if_pos hcand]
      show st.attempts + 1 ≤ st.attempts + (fuel + 1)
      omega
    rw [if_neg hcand]
    by_cases hseen : stream st.pos % cands.length ∈ st.seen
    · rw [if_pos hseen]
      have h2 := ih ⟨st.chosen, st.seen, st.attempts + 1, st.pos + 1⟩
      show (loopGo wordTok posTag cands nouns num_questions stream fuel
        ⟨st.chosen, st.seen, st.attempts + 1, st.pos + 1⟩).attempts ≤
        st.attempts + (fuel + 1)
      simp only [] at h2
      omega
    rw [if_neg hseen]
    by_cases hsn : (sentenceNouns wordTok posTag nouns
        (cands.getD (stream st.pos % cands.length) "")).isEmpty
    · rw [if_pos hsn]
      have h2 := ih ⟨st.chosen, stream st.pos % cands.length :: st.seen,
        st.attempts + 1, st.pos + 1⟩
      show (loopGo wordTok posTag cands nouns num_questions stream fuel
        ⟨st.chosen, stream st.pos % cands.length :: st.seen, st.attempts + 1,
          st.pos + 1⟩).attempts ≤ st.attempts + (fuel + 1)
      simp only [] at h2
      omega
    rw [if_neg hsn]
    set sentence := cands.getD (stream st.pos % cands.length) "" with hsent
    set sn := sentenceNouns wordTok posTag nouns sentence with hsnd
    set target := sn.getD (stream (st.pos + 1) % sn.length) "" with htgt
    set built := _build_mcq sentence target nouns stream (st.pos + 2) with hbuilt
    cases hpp : postProcessOptions built.1.2.2 built.1.2.1 with
    | none =>
      have h2 := ih ⟨st.chosen, stream st.pos % cands.length :: st.seen,
        st.attempts + 1, built.2⟩
      show (loopGo wordTok posTag cands nouns num_questions stream fuel
        ⟨st.chosen, stream st.pos % cands.length :: st.seen, st.attempts + 1,
          built.2⟩).attempts ≤ st.attempts + (fuel + 1)
      simp only [] at h2
      omega
    | some options_final2 =>
      have h2 := ih ⟨st.chosen ++ [(built.1.1,
          (drawGo stream options_final2.length options_final2 built.2).1, built.1.2.2)],
        stream st.pos % cands.length :: st.seen, st.attempts + 1,
        (drawGo stream options_final2.length options_final2 built.2).2⟩
      show (loopGo wordTok posTag cands nouns num_questions stream fuel
        ⟨st.chosen ++ [(built.1.1,
            (drawGo stream options_final2.length options_final2 built.2).1, built.1.2.2)],
          stream st.pos % cands.length :: st.seen, st.attempts + 1,
          (drawGo stream options_final2.length options_final2 built.2).2⟩).attempts ≤
        st.attempts + (fuel + 1)
      simp only [] at h2
      omega

/-! ### Claim theorems -/

/-- Claim C1: for every question accepted into the quiz result, the correct
answer is a member of its option list, the option list contains no two
entries that are equal case-insensitively, and the option list has between
2 and 4 entries.  Holds for every document, requested count, stream and
(deterministic) tokenizer/tagger collaborators. -/
theorem quiz_items_answer_valid (sentTok wordTok : String → List String)
    (posTag : List String → List (String × String)) (rawText : String)
    (num_questions : Int) (stream : Nat → Nat)
    (items : List (String × List String × String))
    (hok : generate_quiz_items sentTok wordTok posTag rawText num_questions stream =
      Except.ok items) :
    ∀ q ∈ items, q.2.2 ∈ q.2.1 ∧
      q.2.1.Pairwise (fun a b => lowerStr a ≠ lowerStr b) ∧
      2 ≤ q.2.1.length ∧ q.2.1.length ≤ 4 := by
  unfold generate_quiz_items at hok
  by_cases h1 : _read_pdf_text_cleanup rawText = ""
  · rw [if_pos h1] at hok
    cases hok
  rw [if_neg h1] at hok
  simp only [] at hok
  by_cases h2 : (_select_candidate_sentences sentTok (_read_pdf_text_cleanup rawText)).isEmpty
  · rw [if_pos h2] at hok
    cases hok
  rw [if_neg h2] at hok
  set nouns := (if (_collect_nouns wordTok posTag (_read_pdf_text_cleanup rawText)).isEmpty
    then _fallback_nouns (_read_pdf_text_cleanup rawText)
    else _collect_nouns wordTok posTag (_read_pdf_text_cleanup rawText)) with hnouns
  set loopOut := loopGo wordTok posTag
    (_select_candidate_sentences sentTok (_read_pdf_text_cleanup rawText)) nouns
    num_questions stream (maxAttemptsN num_questions) ⟨[], [], 0, 0⟩ with hlo
  by_cases h3 : loopOut.chosen.isEmpty
  · rw [if_pos h3] at hok
    cases hok
  rw [if_neg h3] at hok
  have hitems : loopOut.chosen = items := by
    injection hok
  intro q hq
  have hQ := loopGo_QOk wordTok posTag
    (_select_candidate_sentences sentTok (_read_pdf_text_cleanup rawText)) nouns
    num_questions stream
    (by rw [hnouns]; exact nouns_poolOk wordTok posTag (_read_pdf_text_cleanup rawText))
    (maxAttemptsN num_questions) ⟨[], [], 0, 0⟩ (by intro q' hq'; simp at hq') q
    (by rw [← hlo, hitems]; exact hq)
  exact hQ

/-- Concrete instantiation of `quiz_items_answer_valid` on a successful
8-noun single-sentence run. -/
theorem quiz_items_answer_valid_witness :
    ("alpha" ∈ (["beta", "gamma", "delta", "alpha"] : List String)) ∧
    (["beta", "gamma", "delta", "alpha"] : List String).Pairwise
      (fun a b => lowerStr a ≠ lowerStr b) ∧
    2 ≤ (["beta", "gamma", "delta", "alpha"] : List String).length ∧
    (["beta", "gamma", "delta", "alpha"] : List String).length ≤ 4 := by
  have h := quiz_items_answer_valid oneSentenceTok spaceTok tagAllNN
    "alpha beta gamma delta epsilon zeta eta theta" 1 (fun _ => 0)
    [("_____ beta gamma delta epsilon zeta eta theta",
      ["beta", "gamma", "delta", "alpha"], "alpha")] (by rfl)
    ("_____ beta gamma delta epsilon zeta eta theta",
      ["beta", "gamma", "delta", "alpha"], "alpha") (by simp)
  exact h

/-- Claim C7: the returned quiz holds at most the requested count of
questions and at least one whenever the call succeeds (fewer than requested
is a normal successful outcome — success is not conditioned on reaching the
count). -/
theorem quiz_items_count_bounds (sentTok wordTok : String → List String)
    (posTag : List String → List (String × String)) (rawText : String)
    (num_questions : Int) (stream : Nat → Nat)
    (items : List (String × List String × String))
    (hok : generate_quiz_items sentTok wordTok posTag rawText num_questions stream =
      Except.ok items) :
    1 ≤ items.length ∧ (items.length : Int) ≤ num_questions := by
  unfold generate_quiz_items at hok
  by_cases h1 : _read_pdf_text_cleanup rawText = ""
  · rw [if_pos h1] at hok
    cases hok
  rw [if_neg h1] at hok
  simp only [] at hok
  by_cases h2 : (_select_candidate_sentences sentTok (_read_pdf_text_cleanup rawText)).isEmpty
  · rw [if_pos h2] at hok
    cases hok
  rw [if_neg h2] at hok
  set nouns := (if (_collect_nouns wordTok posTag (_read_pdf_text_cleanup rawText)).isEmpty
    then _fallback_nouns (_read_pdf_text_cleanup rawText)
    else _collect_nouns wordTok posTag (_read_pdf_text_cleanup rawText)) with hnouns
  set loopOut := loopGo wordTok posTag
    (_select_candidate_sentences sentTok (_read_pdf_text_cleanup rawText)) nouns
    num_questions stream (maxAttemptsN num_questions) ⟨[], [], 0, 0⟩ with hlo
  by_cases h3 : loopOut.chosen.isEmpty
  · rw [if_pos h3] at hok
    cases hok
  rw [if_neg h3] at hok
  have hitems : loopOut.chosen = items := by
    injection hok
  have hlen := loopGo_length_le wordTok posTag
    (_select_candidate_sentences sentTok (_read_pdf_text_cleanup rawText)) nouns
    num_questions stream (maxAttemptsN num_questions) ⟨[], [], 0, 0⟩
  rw [← hlo, hitems] at hlen
  have hne : items ≠ [] := by
    intro he
    rw [← hitems] at he
    rw [he] at h3
    exact h3 rfl
  have hpos : 0 < items.length := List.length_pos.mpr hne
  simp only [List.length_nil, Nat.cast_zero] at hlen
  refine ⟨hpos, ?_⟩
  omega

/-- Concrete instantiation of `quiz_items_count_bounds`: requesting 2
questions of a single-sentence document succeeds with 1 question. -/
theorem quiz_items_count_bounds_witness :
    1 ≤ ([("alpha _____ gamma delta epsilon zeta eta theta",
      ["delta", "beta", "theta", "zeta"], "beta")] : List (String × List String × String)).length ∧
    (([("alpha _____ gamma delta epsilon zeta eta theta",
      ["delta", "beta", "theta", "zeta"], "beta")] : List (String × List String × String)).length :
      Int) ≤ 2 :=
  quiz_items_count_bounds oneSentenceTok spaceTok tagAllNN
    "alpha beta gamma delta epsilon zeta eta theta" 2 (fun k => k)
    [("alpha _____ gamma delta epsilon zeta eta theta",
      ["delta", "beta", "theta", "zeta"], "beta")] (by rfl)

/-- Given at least `budget - attempts` fuel, the fuel never decides the
exit: the loop returns only because the `while` guard went false (count
reached or attempt budget exhausted) or because of the empty-pool `break` —
so the structurally recursive model coincides with the source's `while`
loop, whose attempt counter is a hard bound. -/
theorem loopGo_exit_reason (wordTok : String → List String)
    (posTag : List String → List (String × String)) (cands nouns : List String)
    (num_questions : Int) (stream : Nat → Nat) :
    ∀ (fuel : Nat) (st : LoopState), maxAttemptsN num_questions ≤ st.attempts + fuel →
      ¬(((loopGo wordTok posTag cands nouns num_questions stream fuel st).chosen.length :
          Int) < num_questions ∧
        (loopGo wordTok posTag cands nouns num_questions stream fuel st).attempts <
          maxAttemptsN num_questions) ∨ cands.isEmpty = true := by
  intro fuel
  induction fuel with
  | zero =>
    intro st hfuel
    left
    rw [loopGo]
    intro hcontra
    omega
  | succ fuel ih =>
    intro st hfuel
    rw [loopGo]
    simp only []
    by_cases hguard : (st.chosen.length : Int) < num_questions ∧
        st.attempts < maxAttemptsN num_questions
    swap
    · rw [if_neg hguard]
      exact Or.inl hguard
    rw [if_pos hguard]
    by_cases hcand : cands.isEmpty
    · exact Or.inr hcand
    rw [if_neg hcand]
    by_cases hseen : stream st.pos % cands.length ∈ st.seen
    · rw [if_pos hseen]
      exact ih ⟨st.chosen, st.seen, st.attempts + 1, st.pos + 1⟩ (by simp only []; omega)
    rw [if_neg hseen]
    by_cases hsn : (sentenceNouns wordTok posTag nouns
        (cands.getD (stream st.pos % cands.length) "")).isEmpty
    · rw [if_pos hsn]
      exact ih ⟨st.chosen, stream st.pos % cands.length :: st.seen, st.attempts + 1,
        st.pos + 1⟩ (by simp only []; omega)
    rw [if_neg hsn]
    set sentence := cands.getD (stream st.pos % cands.length) "" with hsent
    set sn := sentenceNouns wordTok posTag nouns sentence with hsnd
    set target := sn.getD (stream (st.pos + 1) % sn.length) "" with htgt
    set built := _build_mcq sentence target nouns stream (st.pos + 2) with hbuilt
    cases hpp : postProcessOptions built.1.2.2 built.1.2.1 with
    | none =>
      exact ih ⟨st.chosen, stream st.pos % cands.length :: st.seen, st.attempts + 1,
        built.2⟩ (by simp only []; omega)
    | some options_final2 =>
      exact ih ⟨st.chosen ++ [(built.1.1,
          (drawGo stream options_final2.length options_final2 built.2).1, built.1.2.2)],
        stream st.pos % cands.length :: st.seen, st.attempts + 1,
        (drawGo stream options_final2.length options_final2 built.2).2⟩
        (by simp only []; omega)

/-- Claim C4: started as `generate_quiz_items` starts it (zero attempts,
fuel equal to the budget), the assembly loop performs at most
`max(num_questions * 6, 30)` attempts for every input; the bound is the
attempt counter compared by the loop guard (a hard counter, no timeout),
and the loop always terminates — it is a total function whose exit is
decided by the guard or the empty-pool break, never by the fuel. -/
theorem assembly_attempt_budget (wordTok : String → List String)
    (posTag : List String → List (String × String)) (cands nouns : List String)
    (num_questions : Int) (stream : Nat → Nat) :
    (loopGo wordTok posTag cands nouns num_questions stream (maxAttemptsN num_questions)
      ⟨[], [], 0, 0⟩).attempts ≤ (max (num_questions * 6) 30).toNat ∧
    (¬(((loopGo wordTok posTag cands nouns num_questions stream
          (maxAttemptsN num_questions) ⟨[], [], 0, 0⟩).chosen.length : Int) <
            num_questions ∧
        (loopGo wordTok posTag cands nouns num_questions stream
          (maxAttemptsN num_questions) ⟨[], [], 0, 0⟩).attempts <
            maxAttemptsN num_questions) ∨ cands.isEmpty = true) := by
  constructor
  · have h := loopGo_attempts_le wordTok posTag cands nouns num_questions stream
      (maxAttemptsN num_questions) ⟨[], [], 0, 0⟩
    simpa [maxAttemptsN] using h
  · exact loopGo_exit_reason wordTok posTag cands nouns num_questions stream
      (maxAttemptsN num_questions) ⟨[], [], 0, 0⟩ (by simp)

/-- Claim C5 (amended): each attempt draws a sentence index uniformly over
the WHOLE candidate pool (`randrange(0, len(candidate_sentences))`), not
over the unseen ones; drawing an already-seen index consumes the attempt
and changes nothing else (so accepted stems never repeat, but attempts are
not bounded by the pool size and the loop does not stop when every index
has been seen — it stops only via the count/budget guard). -/
theorem sentence_draw_semantics (wordTok : String → List String)
    (posTag : List String → List (String × String)) (cands nouns : List String)
    (num_questions : Int) (stream : Nat → Nat) (fuel : Nat) (st : LoopState)
    (hguard : (st.chosen.length : Int) < num_questions ∧
      st.attempts < maxAttemptsN num_questions)
    (hcands : cands ≠ []) :
    stream st.pos % cands.length < cands.length ∧
    (stream st.pos % cands.length ∈ st.seen →
      loopGo wordTok posTag cands nouns num_questions stream (fuel + 1) st =
        loopGo wordTok posTag cands nouns num_questions stream fuel
          ⟨st.chosen, st.seen, st.attempts + 1, st.pos + 1⟩) := by
  constructor
  · exact Nat.mod_lt _ (List.length_pos.mpr hcands)
  · intro hseen
    rw [loopGo]
    simp only []
    rw [if_pos hguard]
    have hc : ¬ cands.isEmpty = true := by
      rw [List.isEmpty_iff]
      exact hcands
    rw [if_neg hc, if_pos hseen]

/-- Concrete instantiation of `sentence_draw_semantics`: index 0 is drawn
again although it is already seen, and the step only burns the attempt. -/
theorem sentence_draw_semantics_witness :
    (0 : Nat) % (["hello"] : List String).length < (["hello"] : List String).length ∧
    loopGo spaceTok tagAllNN ["hello"] [] 5 (fun _ => 0) (3 + 1) ⟨[], [0], 1, 7⟩ =
      loopGo spaceTok tagAllNN ["hello"] [] 5 (fun _ => 0) 3 ⟨[], [0], 2, 8⟩ := by
  have h := sentence_draw_semantics spaceTok tagAllNN ["hello"] [] 5 (fun _ => 0) 3
    ⟨[], [0], 1, 7⟩ (by constructor <;> decide) (by decide)
  exact ⟨h.1, h.2 (by decide)⟩

/-- Claim C5 (counterexample): with one candidate sentence (pool size 1) and
an empty noun pool, every index is seen after the first attempt, yet the
loop keeps drawing the seen index and burns the whole budget: 30 attempts
for 5 requested questions, far above the pool size, and it never stops
early — refuting "picks ... among those not yet marked seen (never
re-drawing an already-seen index)", "stops as soon as no unseen sentence
index remains" and "attempts bounded by the sentence-pool size". -/
theorem attempts_exceed_pool :
    (loopGo spaceTok tagAllNN ["hello"] [] 5 (fun _ => 0) (maxAttemptsN 5)
      ⟨[], [], 0, 0⟩).attempts = 30 ∧
    (loopGo spaceTok tagAllNN ["hello"] [] 5 (fun _ => 0) (maxAttemptsN 5)
      ⟨[], [], 0, 0⟩).seen = [0] ∧
    (loopGo spaceTok tagAllNN ["hello"] [] 5 (fun _ => 0) (maxAttemptsN 5)
      ⟨[], [], 0, 0⟩).chosen = [] ∧
    (["hello"] : List String).length = 1 := by
  refine ⟨by rfl, by rfl, by rfl, by rfl⟩

/-- Claim C6 (amended): the three failure conditions — empty document after
normalization, no candidate sentence after filtering, zero questions after
the budget — are three distinct conditions raised with three pairwise
distinct messages, but all of the single exception class `ValueError`: a
caller can catch them as a group by class and tell them apart only by
message, not by exception type. -/
theorem three_failures_distinct_messages (sentTok wordTok : String → List String)
    (posTag : List String → List (String × String)) (rawText : String)
    (num_questions : Int) (stream : Nat → Nat) :
    (_read_pdf_text_cleanup rawText = "" →
      generate_quiz_items sentTok wordTok posTag rawText num_questions stream =
        Except.error (PyErr.valueError msgNoText)) ∧
    (_read_pdf_text_cleanup rawText ≠ "" →
      (_select_candidate_sentences sentTok (_read_pdf_text_cleanup rawText)).isEmpty =
        true →
      generate_quiz_items sentTok wordTok posTag rawText num_questions stream =
        Except.error (PyErr.valueError msgNoSentences)) ∧
    (_read_pdf_text_cleanup rawText ≠ "" →
      (_select_candidate_sentences sentTok (_read_pdf_text_cleanup rawText)).isEmpty =
        false →
      (loopGo wordTok posTag
          (_select_candidate_sentences sentTok (_read_pdf_text_cleanup rawText))
          (if (_collect_nouns wordTok posTag (_read_pdf_text_cleanup rawText)).isEmpty
            then _fallback_nouns (_read_pdf_text_cleanup rawText)
            else _collect_nouns wordTok posTag (_read_pdf_text_cleanup rawText))
          num_questions stream (maxAttemptsN num_questions) ⟨[], [], 0, 0⟩).chosen = [] →
      generate_quiz_items sentTok wordTok posTag rawText num_questions stream =
        Except.error (PyErr.valueError msgGenFailed)) ∧
    msgNoText ≠ msgNoSentences ∧ msgNoText ≠ msgGenFailed ∧
    msgNoSentences ≠ msgGenFailed ∧
    errKind (PyErr.valueError msgNoText) = errKind (PyErr.valueError msgNoSentences) ∧
    errKind (PyErr.valueError msgNoSentences) = errKind (PyErr.valueError msgGenFailed) := by
  refine ⟨?_, ?_, ?_, by decide, by decide, by decide, rfl, rfl⟩
  · intro h1
    unfold generate_quiz_items
    rw [if_pos h1]
  · intro h1 h2
    unfold generate_quiz_items
    rw [if_neg h1]
    simp only []
    rw [if_pos h2]
  · intro h1 h2 h3
    unfold generate_quiz_items
    rw [if_neg h1]
    simp only []
    rw [if_neg (by rw [h2]; exact Bool.false_ne_true)]
    rw [if_pos (by rw [h3]; rfl)]

/-- Concrete instantiation of `three_failures_distinct_messages`: each of
the three failure paths hit on a concrete input. -/
theorem three_failures_distinct_messages_witness :
    generate_quiz_items oneSentenceTok spaceTok tagAllNN "" 1 (fun _ => 0) =
      Except.error (PyErr.valueError msgNoText) ∧
    generate_quiz_items oneSentenceTok spaceTok tagAllNN "hi." 1 (fun _ => 0) =
      Except.error (PyErr.valueError msgNoSentences) ∧
    generate_quiz_items oneSentenceTok spaceTok tagAllNN
      "alpha beta gamma delta epsilon zeta eta theta" 0 (fun _ => 0) =
      Except.error (PyErr.valueError msgGenFailed) := by
  refine ⟨?_, ?_, ?_⟩
  · exact (three_failures_distinct_messages oneSentenceTok spaceTok tagAllNN "" 1
      (fun _ => 0)).1 (by rfl)
  · exact (three_failures_distinct_messages oneSentenceTok spaceTok tagAllNN "hi." 1
      (fun _ => 0)).2.1 (by decide) (by rfl)
  · exact (three_failures_distinct_messages oneSentenceTok spaceTok tagAllNN
      "alpha beta gamma delta epsilon zeta eta theta" 0 (fun _ => 0)).2.2.1
      (by decide) (by rfl) (by rfl)

/-- Claim C6 (counterexample): two different failure conditions surface as
exceptions of the SAME class (`ValueError`), so they are not separately
catchable by exception type — only their message strings differ. -/
theorem errors_share_exception_kind :
    generate_quiz_items oneSentenceTok spaceTok tagAllNN "" 1 (fun _ => 0) =
      Except.error (PyErr.valueError msgNoText) ∧
    generate_quiz_items oneSentenceTok spaceTok tagAllNN "hi there." 1 (fun _ => 0) =
      Except.error (PyErr.valueError msgNoSentences) ∧
    errKind (PyErr.valueError msgNoText) = errKind (PyErr.valueError msgNoSentences) ∧
    msgNoText ≠ msgNoSentences := by
  refine ⟨by rfl, by rfl, rfl, by decide⟩

/-- Claim C10 (amended): with a non-positive requested count the loop guard
fails at once, zero questions are accepted and the call never returns a
quiz; the error is `QuizGenerationFailed` whenever the document passes the
empty-text and sentence-candidate checks (otherwise the corresponding
earlier error is raised instead — see the counterexample). -/
theorem nonpositive_count_never_ok (sentTok wordTok : String → List String)
    (posTag : List String → List (String × String)) (rawText : String)
    (stream : Nat → Nat) (num_questions : Int) (hn : num_questions ≤ 0) :
    (∀ items, generate_quiz_items sentTok wordTok posTag rawText num_questions stream ≠
      Except.ok items) ∧
    (_read_pdf_text_cleanup rawText ≠ "" →
      (_select_candidate_sentences sentTok (_read_pdf_text_cleanup rawText)).isEmpty =
        false →
      generate_quiz_items sentTok wordTok posTag rawText num_questions stream =
        Except.error (PyErr.valueError msgGenFailed)) := by
  have hloop : ∀ (fuel : Nat) (cands nouns : List String),
      loopGo wordTok posTag cands nouns num_questions stream fuel ⟨[], [], 0, 0⟩ =
        ⟨[], [], 0, 0⟩ := by
    intro fuel cands nouns
    cases fuel with
    | zero => rw [loopGo]
    | succ fuel =>
      rw [loopGo]
      have hng : ¬ (((⟨[], [], 0, 0⟩ : LoopState).chosen.length : Int) < num_questions ∧
          (⟨[], [], 0, 0⟩ : LoopState).attempts < maxAttemptsN num_questions) := by
        intro hcontra
        have h5 := hcontra.1
        simp only [List.length_nil, Nat.cast_zero] at h5
        omega
      rw [if_neg hng]
  constructor
  · intro items hok
    unfold generate_quiz_items at hok
    by_cases h1 : _read_pdf_text_cleanup rawText = ""
    · rw [if_pos h1] at hok
      cases hok
    rw [if_neg h1] at hok
    simp only [] at hok
    by_cases h2 : (_select_candidate_sentences sentTok
        (_read_pdf_text_cleanup rawText)).isEmpty
    · rw [if_pos h2] at hok
      cases hok
    rw [if_neg h2] at hok
    rw [hloop] at hok
    rw [if_pos (by rfl)] at hok
    cases hok
  · intro h1 h2
    unfold generate_quiz_items
    rw [if_neg h1]
    simp only []
    rw [if_neg (by rw [h2]; exact Bool.false_ne_true)]
    rw [hloop]
    rw [if_pos (by rfl)]

/-- Concrete instantiation of `nonpositive_count_never_ok` at count 0 on a
document that passes the earlier checks. -/
theorem nonpositive_count_never_ok_witness :
    generate_quiz_items oneSentenceTok spaceTok tagAllNN
      "alpha beta gamma delta epsilon zeta eta theta" 0 (fun k => k) ≠
      Except.ok [] ∧
    generate_quiz_items oneSentenceTok spaceTok tagAllNN
      "alpha beta gamma delta epsilon zeta eta theta" 0 (fun k => k) =
      Except.error (PyErr.valueError msgGenFailed) := by
  have h := nonpositive_count_never_ok oneSentenceTok spaceTok tagAllNN
    "alpha beta gamma delta epsilon zeta eta theta" (fun k => k) 0 le_rfl
  exact ⟨h.1 [], h.2 (by decide) (by rfl)⟩

/-- Claim C10 (counterexample): the claim promises the
quiz-generation-failed error "for every document", but with requested count
0 and an empty document the call raises the distinct empty-document error
instead. -/
theorem nonpositive_count_error_kind :
    generate_quiz_items oneSentenceTok spaceTok tagAllNN "" 0 (fun _ => 0) =
      Except.error (PyErr.valueError msgNoText) ∧
    PyErr.valueError msgNoText ≠ PyErr.valueError msgGenFailed := by
  refine ⟨by rfl, by decide⟩

/-- Claim C3: the pipeline is deterministic — it is a pure function of the
document text, the requested count and the seed.  All randomness is drawn
from the single stream `pyRandom seed` fixed by the seed, the collaborating
tokenizer/tagger are deterministic functions (the spec's contract), and no
other state enters, so equal seeds give byte-identical formatted output. -/
theorem generate_quiz_deterministic (sentTok wordTok : String → List String)
    (posTag : List String → List (String × String)) (rawText : String)
    (num_questions : Int) (seed1 seed2 : Int) (h : seed1 = seed2) :
    generate_quiz_seeded sentTok wordTok posTag rawText num_questions seed1 =
      generate_quiz_seeded sentTok wordTok posTag rawText num_questions seed2 := by
  rw [h]

/-- Concrete instantiation of `generate_quiz_deterministic`. -/
theorem generate_quiz_deterministic_witness :
    generate_quiz_seeded oneSentenceTok spaceTok tagAllNN
      "alpha beta gamma delta epsilon zeta eta theta" 1 42 =
    generate_quiz_seeded oneSentenceTok spaceTok tagAllNN
      "alpha beta gamma delta epsilon zeta eta theta" 1 42 :=
  generate_quiz_deterministic oneSentenceTok spaceTok tagAllNN
    "alpha beta gamma delta epsilon zeta eta theta" 1 42 42 rfl

/-- Claim C8: the distractor candidate set excludes exactly the noun-pool
entries whose lower-cased form equals the target's lower-cased form or that
form with "s" appended; up to 3 distinct distractors are drawn from it
without replacement (`min 3` of its size — fewer than 3, and no failure,
when it is smaller), all members of the candidate set, pairwise distinct
whenever the candidate set has no duplicates. -/
theorem distractor_selection_spec (target : String) (noun_pool : List String)
    (stream : Nat → Nat) (pos : Nat) :
    (∀ x, x ∈ distractors_pool target noun_pool ↔
      x ∈ noun_pool ∧ lowerStr x ≠ lowerStr target ∧
        lowerStr x ≠ lowerStr target ++ "s") ∧
    (drawGo stream (min 3 (distractors_pool target noun_pool).length)
        (distractors_pool target noun_pool) pos).1.length =
      min 3 (distractors_pool target noun_pool).length ∧
    (∀ x ∈ (drawGo stream (min 3 (distractors_pool target noun_pool).length)
        (distractors_pool target noun_pool) pos).1,
      x ∈ distractors_pool target noun_pool) ∧
    ((distractors_pool target noun_pool).Nodup →
      (drawGo stream (min 3 (distractors_pool target noun_pool).length)
        (distractors_pool target noun_pool) pos).1.Nodup) := by
  refine ⟨?_, ?_, ?_, ?_⟩
  · intro x
    unfold distractors_pool
    rw [List.mem_filter]
    simp only [Bool.and_eq_true, bne_iff_ne]
  · rw [drawGo_length]
    omega
  · exact fun x hx => drawGo_subset stream _ _ _ x hx
  · exact fun h => drawGo_nodup stream _ _ _ h

/-- Concrete instantiation of `distractor_selection_spec`: the naive plural
"dogs" and the case-variant "Dog" are excluded; 3 distinct distractors are
drawn from the remaining 4-element set. -/
theorem distractor_selection_spec_witness :
    ("dogs" ∉ distractors_pool "dog" ["Cat", "dogs", "bird", "fish", "Dog", "tree"]) ∧
    ("Dog" ∉ distractors_pool "dog" ["Cat", "dogs", "bird", "fish", "Dog", "tree"]) ∧
    (drawGo (fun _ => 0)
      (min 3 (distractors_pool "dog" ["Cat", "dogs", "bird", "fish", "Dog", "tree"]).length)
      (distractors_pool "dog" ["Cat", "dogs", "bird", "fish", "Dog", "tree"]) 0).1.length =
      3 ∧
    (drawGo (fun _ => 0)
      (min 3 (distractors_pool "dog" ["Cat", "dogs", "bird", "fish", "Dog", "tree"]).length)
      (distractors_pool "dog" ["Cat", "dogs", "bird", "fish", "Dog", "tree"]) 0).1.Nodup := by
  have h := distractor_selection_spec "dog" ["Cat", "dogs", "bird", "fish", "Dog", "tree"]
    (fun _ => 0) 0
  refine ⟨?_, ?_, ?_, h.2.2.2 (by decide)⟩
  · intro hc
    have := (h.1 "dogs").mp hc
    exact this.2.2 (by decide)
  · intro hc
    have := (h.1 "Dog").mp hc
    exact this.2.1 (by decide)
  · rw [h.2.1]
    decide

/-- Claim C9: under the Question-Builder preconditions — the correct answer
is among the options, every option agreeing with it case-insensitively
(after stripping) IS it, its dedup key is nonempty, and there are at most 4
options — the two recovery branches of the post-processing are unreachable:
the deduplicated list already contains the correct answer (so the re-append
guard `correct ∉ normalized` is false), truncation to 4 drops nothing (so
the force-into-last-slot guard is false), and `postProcessOptions` returns
the plain deduplicated list whenever it accepts at all. -/
theorem recovery_branches_unreachable (options : List String) (correct : String)
    (hmem : correct ∈ options) (hlen : options.length ≤ 4)
    (hkey : optionKey correct ≠ "")
    (huniq : ∀ y ∈ options, optionKey y = optionKey correct → y = correct) :
    correct ∈ dedupOptionsGo [] options ∧
    (dedupOptionsGo [] options).take 4 = dedupOptionsGo [] options ∧
    correct ∈ (dedupOptionsGo [] options).take 4 ∧
    (2 ≤ (dedupOptionsGo [] options).length →
      postProcessOptions correct options = some (dedupOptionsGo [] options)) := by
  have h1 : correct ∈ dedupOptionsGo [] options :=
    dedupOptionsGo_mem_of [] options correct hmem hkey (by simp) huniq
  have h2 : (dedupOptionsGo [] options).take 4 = dedupOptionsGo [] options :=
    List.take_of_length_le ((dedupOptionsGo_length [] options).trans hlen)
  refine ⟨h1, h2, by rw [h2]; exact h1, ?_⟩
  intro hge
  unfold postProcessOptions
  rw [if_neg (by omega)]
  simp only []
  rw [if_pos h1, h2, if_pos h1]

/-- Concrete instantiation of `recovery_branches_unreachable` on a
builder-shaped option list. -/
theorem recovery_branches_unreachable_witness :
    "dog" ∈ dedupOptionsGo [] ["cat", "dog", "bird"] ∧
    (dedupOptionsGo [] ["cat", "dog", "bird"]).take 4 =
      dedupOptionsGo [] ["cat", "dog", "bird"] ∧
    "dog" ∈ (dedupOptionsGo [] ["cat", "dog", "bird"]).take 4 ∧
    postProcessOptions "dog" ["cat", "dog", "bird"] =
      some (dedupOptionsGo [] ["cat", "dog", "bird"]) := by
  have h := recovery_branches_unreachable ["cat", "dog", "bird"] "dog" (by decide)
    (by decide) (by decide) (by decide)
  exact ⟨h.1, h.2.1, h.2.2.1, h.2.2.2 (by decide)⟩
